import Mathlib

/-!
The package `gore`: a small regular-expression engine

A shallow embedding of `re.go` and `stringset/stringset.go`.

* Go strings are byte sequences: `Str := List UInt8`.
* A `stringset.Set` (a Go map used as a set) is a duplicate-free list of keys in insertion
  order.  Go leaves the iteration order of a map unspecified; the embedding iterates in
  insertion order.  A nil set and an empty set are both the empty list: the source never
  writes to a set it did not create with `New`.
* A Go call either returns, returns an error value, or panics; loops without a syntactic
  bound are run with a fuel counter.  `Outcome` records which of these happened.
* Go `int` is taken to be 64 bits wide and is embedded as `Int`.  The only arithmetic the
  source does on an `int` is the increment of the loop counters of `Count.Accept`, which
  wraps around modulo `2 ^ 64` (`incr`).  With `max` equal to the largest `int` the
  condition `i <= c.max` of the second loop holds for every `int`, and the loop never ends.
-/

namespace gore

/-- A Go string: a sequence of bytes. -/
abbrev Str := List UInt8

/-- What a call does: it returns a value, returns a Go `error`, panics at run time, or is
still running when the fuel of the embedding is used up. -/
inductive Outcome (α : Type) where
  | ok (val : α) : Outcome α
  | error (msg : String) : Outcome α
  | panicked : Outcome α
  | diverge : Outcome α
  deriving Repr

/-- Sequencing of calls: the continuation runs only on a normal return. -/
def Outcome.bind {α β : Type} : Outcome α → (α → Outcome β) → Outcome β
  | .ok v, k => k v
  | .error m, _ => .error m
  | .panicked, _ => .panicked
  | .diverge, _ => .diverge

namespace stringset

/-- The type `Set` of `stringset.go`: `map[string]struct{}`. -/
abbrev Set := List Str

/-- The method `Set.Add`: `s[k] = struct{}{}`. -/
def Add (s : Set) (k : Str) : Set := if k ∈ s then s else s ++ [k]

/-- The function `New`: a fresh set holding the given strings. -/
def New (ss : List Str) : Set := ss.foldl Add []

/-- The method `Set.Has`. -/
def Has (s : Set) (k : Str) : Bool := decide (k ∈ s)

/-- The method `Set.Union`: every key of `t` is stored in `s`. -/
def Union (s t : Set) : Set := t.foldl Add s

end stringset

open stringset

/-- The implementations of the interface `Acceptor` in `re.go`. -/
inductive Acceptor where
  | Dot : Acceptor
  | Single (c : UInt8) : Acceptor
  | Range (lo hi : UInt8) : Acceptor
  | Maybe (mini : Acceptor) : Acceptor
  | Star (mini : Acceptor) : Acceptor
  | Count (mini : Acceptor) (min max : Int) : Acceptor
  | Plus (mini : Acceptor) : Acceptor
  | Sequence (s : List Acceptor) : Acceptor
  | Pipe (left right : Acceptor) : Acceptor
  | PipePlaceHolder : Acceptor
  deriving Repr

/-- The type `Regexp` of `re.go`: `[]Acceptor`. -/
abbrev Regexp := List Acceptor

/-- The loop `for n := range next { out.Union(f(n)) }` of `Count.Accept` and
`Sequence.Accept`; `Plus.Accept` writes the union as a loop of `out.Add`. -/
def unionOver (f : Str → Outcome Set) : List Str → Set → Outcome Set
  | [], out => .ok out
  | n :: rest, out => (f n).bind fun r => unionOver f rest (Union out r)

/-- The body of the inner loop of `Star.Accept`: a string already in `set` is skipped,
a new one is added to `set` and appended to `queue`. -/
def Star.visit (acc : Set × List Str) (n : Str) : Set × List Str :=
  if Has acc.1 n then acc else (Add acc.1 n, acc.2 ++ [n])

/-- The work-queue loop `for len(queue) > 0 { ... }` of `Star.Accept`, over the child's
`Accept` function `f`; one unit of fuel per dequeued string. -/
def Star.loop (f : Str → Outcome Set) : Nat → Set → List Str → Outcome Set
  | _, set, [] => .ok set
  | 0, _, _ :: _ => .diverge
  | fuel + 1, set, popd :: queue =>
    (f popd).bind fun next =>
      Star.loop f fuel (next.foldl Star.visit (set, queue)).1
        (next.foldl Star.visit (set, queue)).2

/-- The body of `Star.Accept` over the child's `Accept` function `f`. -/
def Star.run (f : Str → Outcome Set) (fuel : Nat) (cs : Str) : Outcome Set :=
  Star.loop f fuel (New [cs]) [cs]

/-- The largest value of a Go `int` of 64 bits (`math.MaxInt64`). -/
def maxInt : Int := 9223372036854775807

/-- The smallest value of a Go `int` of 64 bits (`math.MinInt64`). -/
def minInt : Int := -9223372036854775808

/-- The statement `i++` (and the expression `i+1`) on an `int`: the sum wraps around modulo
`2 ^ 64` into the range from `minInt` to `maxInt`. -/
def incr (i : Int) : Int := (i + 1 + 2 ^ 63) % 2 ^ 64 - 2 ^ 63

/-- The first loop of `Count.Accept`, `for i := 0; i < c.max; i++`, from the counter `i`
on: `depths[i+1]` is the union of the child's results over `depths[i]`.  The map `depths`
is a function that is nil (empty) at every key not yet written.  `k` is the number of
rounds the embedding follows; the loop is still running when they are used up and the
condition still holds. -/
def Count.fill (f : Str → Outcome Set) (max : Int) :
    Nat → Int → (Int → Set) → Outcome (Int → Set)
  | 0, i, depths => if i < max then .diverge else .ok depths
  | k + 1, i, depths =>
    if i < max then
      (unionOver f (depths i) (New [])).bind fun tmp =>
        Count.fill f max k (incr i) (Function.update depths (incr i) tmp)
    else .ok depths

/-- The second loop of `Count.Accept`, `for i := c.min; i <= c.max; i++`, from the counter
`i` on, with `k` the number of rounds the embedding follows. -/
def Count.collect (depths : Int → Set) (max : Int) : Nat → Int → Set → Outcome Set
  | 0, i, out => if i ≤ max then .diverge else .ok out
  | k + 1, i, out =>
    if i ≤ max then Count.collect depths max k (incr i) (Union out (depths i)) else .ok out

/-- The body of `Count.Accept` over the child's `Accept` function `f`.  The counter of the
first loop runs from `0` up to `max` and leaves the loop after `max` rounds.  The counter
of the second loop runs from `min` and passes `max` after `max - min + 1` rounds, unless
`max` is the largest `int`: then the counter wraps around, no `int` is above `max`, and the
loop is still running after any number of rounds. -/
def Count.run (f : Str → Outcome Set) (min max : Int) (cs : Str) : Outcome Set :=
  (Count.fill f max max.toNat 0 (Function.update (fun _ => []) 0 (New [cs]))).bind
    fun depths => Count.collect depths max (max - min + 1).toNat min (New [])

mutual
/-- The method `Accept` of each implementation of `Acceptor`.  `fuel` bounds the number
of iterations of each run of the work-queue loop of `Star.Accept`. -/
def Acceptor.Accept (fuel : Nat) : Acceptor → Str → Outcome Set
  | .Dot, cs =>
    match cs with
    | [] => .ok []
    | c :: rest => if c = 0 ∨ c ≥ 0x80 then .ok [] else .ok (New [rest])
  | .Single c, cs =>
    match cs with
    | [] => .ok []
    | c0 :: rest => if c ≠ c0 then .ok [] else .ok (New [rest])
  | .Range lo hi, cs =>
    match cs with
    | [] => .ok []
    | c0 :: rest => if c0 < lo ∨ hi < c0 then .ok [] else .ok (New [rest])
  | .Maybe mini, cs =>
    (mini.Accept fuel cs).bind fun bs => .ok (bs.foldl Add (New [cs]))
  | .Star mini, cs => Star.run (mini.Accept fuel) fuel cs
  | .Count mini min max, cs => Count.run (mini.Accept fuel) min max cs
  | .Plus mini, cs =>
    (mini.Accept fuel cs).bind fun next =>
      unionOver (Star.run (mini.Accept fuel) fuel) next (New [])
  | .Sequence s, cs => Sequence.Accept fuel s cs
  | .Pipe left right, cs =>
    (left.Accept fuel cs).bind fun l =>
      (right.Accept fuel cs).bind fun r => .ok (Union (Union (New []) l) r)
  | .PipePlaceHolder, _ => .panicked
/-- The method `Sequence.Accept`. -/
def Sequence.Accept (fuel : Nat) : List Acceptor → Str → Outcome Set
  | [], cs => .ok (New [cs])
  | a :: as, cs =>
    (a.Accept fuel cs).bind fun next => unionOver (Sequence.Accept fuel as) next (New [])
end

namespace fmt

/-- The ASCII white space that the scanner of package `fmt` skips, the newline apart:
tab, vertical tab, form feed, carriage return and blank. -/
def isSpace (c : UInt8) : Bool := c = 9 || c = 11 || c = 12 || c = 13 || c = 32

/-- The method `SkipSpace` of the scanner as `Sscanf` runs it: white space is skipped, a
newline is an error. -/
def SkipSpace : Str → Outcome Str
  | [] => .ok []
  | c :: rest =>
    if c = 10 then .error "unexpected newline"
    else if isSpace c then SkipSpace rest
    else .ok (c :: rest)

/-- The bytes that the verb `%d` collects into its token: decimal digits and `_`. -/
def isDigit (c : UInt8) : Bool := (48 ≤ c && c ≤ 57) || c = 95

/-- The value of a token of decimal digits. -/
def value (tok : Str) : Nat := tok.foldl (fun v c => 10 * v + (c.toNat - 48)) 0

/-- The call `strconv.ParseInt(tok, 10, 64)` on the token `tok` of digits that follows an
optional sign: `_` is not a digit of base 10, and the value has to fit an `int` of 64
bits.  `rest` is the input after the token. -/
def parseInt (neg : Bool) (tok rest : Str) : Outcome (Int × Str) :=
  if tok = [] then .error "expected integer"
  else if 95 ∈ tok then .error "strconv.ParseInt: invalid syntax"
  else if neg then
    if value tok > 2 ^ 63 then .error "strconv.ParseInt: value out of range"
    else .ok (-(value tok : Int), rest)
  else
    if value tok ≥ 2 ^ 63 then .error "strconv.ParseInt: value out of range"
    else .ok ((value tok : Int), rest)

/-- The method `scanNumber` of the scanner after the sign has been read: the longest run
of digit bytes is the token, and an empty token is an error. -/
def scanNumber (neg : Bool) (input : Str) : Outcome (Int × Str) :=
  if input = [] then .error "unexpected EOF"
  else parseInt neg (input.takeWhile isDigit) (input.dropWhile isDigit)

/-- The verb `%d` storing into an `int` of 64 bits: white space, an optional sign, a token
of digits.  Returns the integer and the input that is left. -/
def scanInt (input : Str) : Outcome (Int × Str) :=
  (SkipSpace input).bind fun s1 =>
    match s1 with
    | [] => .error "unexpected EOF"
    | c :: r1 =>
      if c = 45 then scanNumber true r1
      else if c = 43 then scanNumber false r1
      else scanNumber false (c :: r1)

/-- Modelled from the spec: `fmt.Sscanf` belongs to the Go standard library and is not
among the sources of the repository.  This is the call `fmt.Sscanf(input, "%d,%d", &min,
&max)` of `Parse`, which the spec describes as scanning two decimal integers separated by
a comma: the first integer, the byte `,`, the second integer; what follows the second
integer is not read.  The scanner is followed byte by byte for ASCII input (the
multi-byte Unicode spaces that the library also skips are not modelled), and the text
of an error of `strconv` is shortened. -/
def Sscanf (input : Str) : Outcome (Int × Int) :=
  (scanInt input).bind fun r1 =>
    match r1.2 with
    | [] => .error "unexpected EOF"
    | c :: r2 =>
      if c ≠ 44 then .error "input does not match format"
      else (scanInt r2).bind fun r3 => .ok (r1.1, r3.1)

end fmt

/-- The scanning loop of `parseRange`, `for ; input[end] != ']'; end++ {}`, on the input
from index `end` on.  Indexing past the end of the string panics. -/
def parseRange.scan : Str → Nat → Outcome Nat
  | [], _ => .panicked
  | c :: rest, e => if c = 93 then .ok e else parseRange.scan rest (e + 1)

/-- The member loop of `parseRange`, `for i := 0; i < len(input); { ... }`, on the input
from index `i` on.  `input[i+2]` panics when the class body ends after the `-`. -/
def parseRange.members : Str → List Acceptor → Outcome (List Acceptor)
  | [], choices => .ok choices
  | [x], choices => .ok (choices ++ [.Single x])
  | x :: y :: rest, choices =>
    if y = 45 then
      match rest with
      | [] => .panicked
      | z :: rest2 => parseRange.members rest2 (choices ++ [.Range x z])
    else parseRange.members (y :: rest) (choices ++ [.Single x])

/-- The function `parseRange`: the class after a consumed `[`, and the index after the
closing `]`. -/
def parseRange (input : Str) : Outcome (Acceptor × Int) :=
  match input with
  | [] => .panicked
  | c0 :: _ =>
    (parseRange.scan (input.drop (if c0 = 93 then 1 else 0)) (if c0 = 93 then 1 else 0)).bind
      fun e =>
        if e ≥ input.length then .ok (.Dot, -1)
        else
          match (input.take e).head?, (input.take e).getLast? with
          | some first, some last =>
            (parseRange.members (input.take e)
                (if first = 45 ∨ last = 45 then [.Single 45] else [])).bind fun choices =>
              match choices with
              | [] => .panicked
              | lhs :: rest => .ok (rest.foldl .Pipe lhs, (e : Int) + 1)
          | _, _ => .panicked

/-- The loop `for input[0] != '}' { input = input[1:] }` of `Parse` followed by
`input = input[1:]`; `none` when the input ends first and `input[0]` panics. -/
def Parse.skipBrace : Str → Option Str
  | [] => none
  | c :: rest => if c = 125 then some rest else Parse.skipBrace rest

/-- What one iteration of the loop of `Parse` does after it has read the byte `ch`:
it goes on with new values of `out` and `input`, it meets `|` (and parses the rest by a
recursive call), it returns an error, or it panics. -/
inductive Parse.Step where
  | next (out : List Acceptor) (input : Str) : Parse.Step
  | alt (out : List Acceptor) (input : Str) : Parse.Step
  | fail (msg : String) : Parse.Step
  | crash : Parse.Step

/-- The cases `*`, `+`, `?` of the `switch` of `Parse`: `out[end] = wrap(out[end])` with
`end = len(out) - 1`, an error when `out` is empty. -/
def Parse.wrapLast (wrap : Acceptor → Acceptor) (out : List Acceptor) (input : Str) :
    Parse.Step :=
  match out.getLast? with
  | none => .fail "syntax error"
  | some x => .next (out.dropLast ++ [wrap x]) input

/-- The `switch ch { ... }` of `Parse`, where `ch, input = input[0], input[1:]`. -/
def Parse.step (out : List Acceptor) (ch : UInt8) (input : Str) : Parse.Step :=
  if ch = 46 then .next (out ++ [.Dot]) input
  else if ch = 42 then Parse.wrapLast .Star out input
  else if ch = 43 then Parse.wrapLast .Plus out input
  else if ch = 63 then Parse.wrapLast .Maybe out input
  else if ch = 124 then .alt out input
  else if ch = 123 then
    match out.getLast? with
    | none => .fail "syntax error"
    | some x =>
      match fmt.Sscanf input with
      | .ok (min, max) =>
        match Parse.skipBrace input with
        | none => .crash
        | some rest => .next (out.dropLast ++ [.Count x min max]) rest
      | .error msg => .fail msg
      | .panicked => .crash
      | .diverge => .crash
  else if ch = 91 then
    match parseRange input with
    | .ok (matcher, bracedx) =>
      if bracedx < 0 then .fail "syntax error"
      else if bracedx.toNat > input.length then .crash
      else .next (out ++ [matcher]) (input.drop bracedx.toNat)
    | .error msg => .fail msg
    | .panicked => .crash
    | .diverge => .crash
  else if ch = 92 then
    match input with
    | [] => .fail "syntax error"
    | c :: rest => .next (out ++ [.Single c]) rest
  else .next (out ++ [.Single ch]) input

/-- The loop `for len(input) > 0 { ... }` of `Parse`, from the state `out`, `input`.  Every
iteration consumes a byte, so fuel `len(input)` is enough.  At `|` the source calls
`right, _ := Parse(input)`: the error of the recursive call is dropped and `right` is
then nil. -/
def Parse.loop : Nat → List Acceptor → Str → Outcome (List Acceptor)
  | _, out, [] => .ok out
  | 0, _, _ :: _ => .diverge
  | fuel + 1, out, ch :: input =>
    match Parse.step out ch input with
    | .next out2 rest => Parse.loop fuel out2 rest
    | .alt left rest =>
      match Parse.loop fuel [] rest with
      | .ok right => .ok [.Pipe (.Sequence left) (.Sequence right)]
      | .error _ => .ok [.Pipe (.Sequence left) (.Sequence [])]
      | .panicked => .panicked
      | .diverge => .diverge
    | .fail msg => .error msg
    | .crash => .panicked

/-- The function `Parse`. -/
def Parse (input : Str) : Outcome Regexp := Parse.loop input.length [] input

/-- The method `Regexp.Match`: `len(Sequence(r).Accept(input)) != 0`. -/
def Regexp.Match (fuel : Nat) (r : Regexp) (input : Str) : Outcome Bool :=
  (Sequence.Accept fuel r input).bind fun set => .ok (set.length != 0)

mutual
/-- The structural check for the panicking node `PipePlaceHolder`: true when it occurs
somewhere in the tree. -/
def Acceptor.hasPlaceHolder : Acceptor → Bool
  | .Dot => false
  | .Single _ => false
  | .Range _ _ => false
  | .Maybe mini => mini.hasPlaceHolder
  | .Star mini => mini.hasPlaceHolder
  | .Count mini _ _ => mini.hasPlaceHolder
  | .Plus mini => mini.hasPlaceHolder
  | .Sequence s => Sequence.hasPlaceHolder s
  | .Pipe left right => left.hasPlaceHolder || right.hasPlaceHolder
  | .PipePlaceHolder => true
/-- The check for `PipePlaceHolder` in the nodes of a list. -/
def Sequence.hasPlaceHolder : List Acceptor → Bool
  | [] => false
  | a :: as => a.hasPlaceHolder || Sequence.hasPlaceHolder as
end

mutual
/-- The structural check on the bounds of the `Count` nodes of a tree: true when, in every
`Count` node, `min` and `max` are values of an `int` and `max` is not the largest `int`. -/
def Acceptor.countsBelowMax : Acceptor → Bool
  | .Dot => true
  | .Single _ => true
  | .Range _ _ => true
  | .Maybe mini => mini.countsBelowMax
  | .Star mini => mini.countsBelowMax
  | .Count mini min max =>
    decide (minInt ≤ min) && decide (min ≤ maxInt) && decide (minInt ≤ max) &&
      decide (max < maxInt) && mini.countsBelowMax
  | .Plus mini => mini.countsBelowMax
  | .Sequence s => Sequence.countsBelowMax s
  | .Pipe left right => left.countsBelowMax && right.countsBelowMax
  | .PipePlaceHolder => true
/-- The check on the bounds of the `Count` nodes in the nodes of a list. -/
def Sequence.countsBelowMax : List Acceptor → Bool
  | [] => true
  | a :: as => a.countsBelowMax && Sequence.countsBelowMax as
end

/-- The string `u` is reached from `s` by exactly `k` successive steps of the relation `R`. -/
def Reach (R : Str → Str → Prop) : Nat → Str → Str → Prop
  | 0, s, u => u = s
  | k + 1, s, u => ∃ t, Reach R k s t ∧ R t u

mutual
/-- The matching relation that `Accept` computes: `a.Den s u` says that `u` is what remains
of `s` after a match of `a` at the start of `s`.  It is the reference the loops of
`Accept` are compared with. -/
def Acceptor.Den : Acceptor → Str → Str → Prop
  | .Dot, s, u => ∃ c, s = c :: u ∧ ¬ (c = 0 ∨ c ≥ 0x80)
  | .Single c, s, u => s = c :: u
  | .Range lo hi, s, u => ∃ c, s = c :: u ∧ ¬ (c < lo ∨ hi < c)
  | .Maybe mini, s, u => u = s ∨ mini.Den s u
  | .Star mini, s, u => Relation.ReflTransGen (fun x y => mini.Den x y) s u
  | .Count mini min max, s, u =>
    ∃ k : Nat, min ≤ (k : Int) ∧ (k : Int) ≤ max ∧ Reach (fun x y => mini.Den x y) k s u
  | .Plus mini, s, u =>
    ∃ t, mini.Den s t ∧ Relation.ReflTransGen (fun x y => mini.Den x y) t u
  | .Sequence l, s, u => Sequence.Den l s u
  | .Pipe left right, s, u => left.Den s u ∨ right.Den s u
  | .PipePlaceHolder, _, _ => False
/-- The matching relation of a sequence of nodes: one node after the other. -/
def Sequence.Den : List Acceptor → Str → Str → Prop
  | [], s, u => u = s
  | a :: as, s, u => ∃ t, a.Den s t ∧ Sequence.Den as t u
end

/-- The bytes for which the `switch` of `Parse` has no case of its own (all but `.`, `*`,
`+`, `?`, `|`, `{`, `[` and the backslash): they go to the `default` case. -/
def Parse.isLiteral (ch : UInt8) : Bool :=
  ch != 46 && ch != 42 && ch != 43 && ch != 63 && ch != 124 && ch != 123 && ch != 91 && ch != 92

/-- The words of the spec for one bound of `{...}`, as the verb `%d` reads it: `input`
begins with a decimal integer (white space, an optional sign, at least one decimal digit)
and `rest` is what follows the integer. -/
def fmt.BeginsWithInt (input rest : Str) : Prop :=
  ∃ sp sg ds : Str, input = sp ++ sg ++ ds ++ rest ∧ (∀ c ∈ sp, fmt.isSpace c = true) ∧
    (sg = [] ∨ sg = [43] ∨ sg = [45]) ∧ ds ≠ [] ∧ ∀ c ∈ ds, (48 : UInt8) ≤ c ∧ c ≤ 57

/-- The words of the spec for the body of `{...}`: the text begins with two decimal integers
separated by a comma. -/
def fmt.BeginsWithTwoInts (b : Str) : Prop :=
  ∃ mid rest : Str, fmt.BeginsWithInt b (44 :: mid) ∧ fmt.BeginsWithInt mid rest

/-! ## Properties of the embedding -/

@[simp] theorem Outcome.bind_ok {α β : Type} (v : α) (k : α → Outcome β) :
    (Outcome.ok v).bind k = k v := rfl
@[simp] theorem Outcome.bind_error {α β : Type} (m : String) (k : α → Outcome β) :
    (Outcome.error m : Outcome α).bind k = .error m := rfl
@[simp] theorem Outcome.bind_panicked {α β : Type} (k : α → Outcome β) :
    (Outcome.panicked : Outcome α).bind k = .panicked := rfl
@[simp] theorem Outcome.bind_diverge {α β : Type} (k : α → Outcome β) :
    (Outcome.diverge : Outcome α).bind k = .diverge := rfl

theorem Outcome.bind_eq_ok {α β : Type} {o : Outcome α} {k : α → Outcome β} {b : β}
    (h : o.bind k = .ok b) : ∃ a, o = .ok a ∧ k a = .ok b := by
  cases o <;> simp at h
  exact ⟨_, rfl, h⟩

/-! ### The scanner -/

theorem fmt.SkipSpace_append (X : Str) : ∀ s : Str, (125 : UInt8) ∈ s →
    fmt.SkipSpace (s ++ X) = (fmt.SkipSpace s).bind (fun r => .ok (r ++ X)) ∧
      ∀ r, fmt.SkipSpace s = .ok r → (125 : UInt8) ∈ r
  | [], h => by simp at h
  | c :: rest, h => by
    by_cases h10 : c = 10
    · simp [fmt.SkipSpace, h10]
    · by_cases hsp : fmt.isSpace c = true
      · have hc : c ≠ 125 := by
          rintro rfl
          revert hsp
          decide
        have hr : (125 : UInt8) ∈ rest := by
          rcases List.mem_cons.1 h with h | h
          · exact absurd h.symm hc
          · exact h
        have ih := fmt.SkipSpace_append X rest hr
        simpa [fmt.SkipSpace, h10, hsp] using ih
      · simp [fmt.SkipSpace, h10, hsp]
        simpa using h

theorem takeWhile_append_of_mem {p : UInt8 → Bool} {x : UInt8} (hx : p x = false) (X : Str) :
    ∀ s : Str, x ∈ s → (s ++ X).takeWhile p = s.takeWhile p ∧
      (s ++ X).dropWhile p = s.dropWhile p ++ X ∧ x ∈ s.dropWhile p
  | [], h => by simp at h
  | c :: rest, h => by
    by_cases hc : p c = true
    · have hr : x ∈ rest := by
        rcases List.mem_cons.1 h with h | h
        · subst h; simp [hx] at hc
        · exact h
      have ih := takeWhile_append_of_mem hx X rest hr
      simp [List.takeWhile, List.dropWhile, hc, ih]
    · simp [List.takeWhile, List.dropWhile, hc, h]


theorem fmt.parseInt_bind (neg : Bool) (tok rest X : Str) :
    (fmt.parseInt neg tok rest).bind (fun p => .ok (p.1, p.2 ++ X)) =
      fmt.parseInt neg tok (rest ++ X) := by
  unfold fmt.parseInt
  split_ifs <;> rfl

theorem fmt.parseInt_rest {neg : Bool} {tok rest : Str} {p : Int × Str}
    (h : fmt.parseInt neg tok rest = .ok p) : p.2 = rest := by
  unfold fmt.parseInt at h
  split_ifs at h <;> cases h <;> rfl

theorem fmt.scanNumber_append (neg : Bool) (X : Str) (s : Str) (h : (125 : UInt8) ∈ s) :
    fmt.scanNumber neg (s ++ X) = (fmt.scanNumber neg s).bind (fun p => .ok (p.1, p.2 ++ X)) ∧
      ∀ p, fmt.scanNumber neg s = .ok p → (125 : UInt8) ∈ p.2 := by
  have hd : fmt.isDigit 125 = false := by decide
  obtain ⟨t1, t2, t3⟩ := takeWhile_append_of_mem hd X s h
  have hne : s ≠ [] := List.ne_nil_of_mem h
  have hne2 : s ++ X ≠ [] := by simp [hne]
  unfold fmt.scanNumber
  rw [if_neg hne, if_neg hne2, t1, t2, fmt.parseInt_bind]
  refine ⟨rfl, fun p hp => ?_⟩
  rw [fmt.parseInt_rest hp]
  exact t3

theorem fmt.scanInt_append (X : Str) (s : Str) (h : (125 : UInt8) ∈ s) :
    fmt.scanInt (s ++ X) = (fmt.scanInt s).bind (fun p => .ok (p.1, p.2 ++ X)) ∧
      ∀ p, fmt.scanInt s = .ok p → (125 : UInt8) ∈ p.2 := by
  obtain ⟨h1, h2⟩ := fmt.SkipSpace_append X s h
  unfold fmt.scanInt
  rw [h1]
  cases hs : fmt.SkipSpace s with
  | error m => simp
  | panicked => simp
  | diverge => simp
  | ok s1 =>
    have hm := h2 s1 hs
    cases s1 with
    | nil => simp at hm
    | cons c r1 =>
      simp only [Outcome.bind_ok, List.cons_append]
      by_cases h45 : c = 45
      · subst h45
        have hr : (125 : UInt8) ∈ r1 := by simpa using hm
        simpa using fmt.scanNumber_append true X r1 hr
      · by_cases h43 : c = 43
        · subst h43
          have hr : (125 : UInt8) ∈ r1 := by simpa using hm
          simpa using fmt.scanNumber_append false X r1 hr
        · simpa [h45, h43] using fmt.scanNumber_append false X (c :: r1) hm

theorem fmt.Sscanf_append (X : Str) (s : Str) (h : (125 : UInt8) ∈ s) :
    fmt.Sscanf (s ++ X) = fmt.Sscanf s := by
  obtain ⟨h1, h2⟩ := fmt.scanInt_append X s h
  unfold fmt.Sscanf
  rw [h1]
  cases hs : fmt.scanInt s with
  | error m => simp
  | panicked => simp
  | diverge => simp
  | ok p =>
    have hm := h2 p hs
    obtain ⟨v, r⟩ := p
    cases r with
    | nil => simp at hm
    | cons c r2 =>
      simp only [Outcome.bind_ok, List.cons_append]
      by_cases hc : c = 44
      · subst hc
        have hr : (125 : UInt8) ∈ r2 := by simpa using hm
        obtain ⟨h3, -⟩ := fmt.scanInt_append X r2 hr
        simp [h3]
        cases fmt.scanInt r2 <;> simp
      · simp [hc]


/-! ### `parseRange` and the loop of `Parse` read no further than they consume -/

theorem Parse.skipBrace_spec : ∀ (s r : Str), Parse.skipBrace s = some r →
    r.length < s.length ∧ r <:+ s ∧ (125 : UInt8) ∈ s ∧
      ∀ X, Parse.skipBrace (s ++ X) = some (r ++ X)
  | [], r, h => by simp [Parse.skipBrace] at h
  | c :: rest, r, h => by
    by_cases hc : c = 125
    · subst hc
      simp only [Parse.skipBrace, if_true, Option.some.injEq] at h
      subst h
      refine ⟨by simp, List.suffix_cons _ _, by simp, fun X => ?_⟩
      simp [Parse.skipBrace]
    · simp only [Parse.skipBrace, if_neg hc] at h
      obtain ⟨h1, h2, h3, h4⟩ := Parse.skipBrace_spec rest r h
      refine ⟨by simp; omega, h2.trans (List.suffix_cons _ _), by simp [h3], fun X => ?_⟩
      simp [Parse.skipBrace, hc, h4]

theorem parseRange.scan_spec : ∀ (t : Str) (e0 e : Nat), parseRange.scan t e0 = .ok e →
    e0 ≤ e ∧ e - e0 < t.length ∧ ∀ X, parseRange.scan (t ++ X) e0 = .ok e
  | [], e0, e, h => by simp [parseRange.scan] at h
  | c :: rest, e0, e, h => by
    by_cases hc : c = 93
    · subst hc
      simp only [parseRange.scan, if_true, Outcome.ok.injEq] at h
      subst h
      simp [parseRange.scan]
    · simp only [parseRange.scan, if_neg hc] at h
      obtain ⟨h1, h2, h3⟩ := parseRange.scan_spec rest (e0 + 1) e h
      refine ⟨by omega, by simp; omega, fun X => ?_⟩
      simp [parseRange.scan, hc, h3]

theorem parseRange_spec (s : Str) (r : Acceptor × Int) (h : parseRange s = .ok r) :
    0 ≤ r.2 ∧ r.2.toNat ≤ s.length ∧ 0 < r.2.toNat ∧ ∀ X, parseRange (s ++ X) = .ok r := by
  cases s with
  | nil => simp [parseRange] at h
  | cons c0 tl =>
    simp only [parseRange] at h
    obtain ⟨e, he, h⟩ := Outcome.bind_eq_ok h
    obtain ⟨h1, h2, h3⟩ := parseRange.scan_spec _ _ _ he
    have hlen : e < (c0 :: tl).length := by
      have : ((c0 :: tl).drop (if c0 = 93 then 1 else 0)).length
          = (c0 :: tl).length - (if c0 = 93 then 1 else 0) := List.length_drop _ _
      omega
    have hnot : ¬ e ≥ (c0 :: tl).length := by omega
    rw [if_neg hnot] at h
    have hr : r.2 = (e : Int) + 1 := by
      revert h
      split
      · intro h
        obtain ⟨ch, -, h⟩ := Outcome.bind_eq_ok h
        revert h
        split
        · simp
        · intro h; cases h; rfl
      · simp
    refine ⟨by omega, by simp at hlen; simp [hr]; omega, by omega, fun X => ?_⟩
    have e0le : (if c0 = 93 then 1 else 0) ≤ (c0 :: tl).length := by
      split_ifs <;> simp
    have hdrop : (c0 :: (tl ++ X)).drop (if c0 = 93 then 1 else 0)
        = (c0 :: tl).drop (if c0 = 93 then 1 else 0) ++ X := by
      rw [← List.cons_append, List.drop_append_of_le_length e0le]
    have htake : (c0 :: (tl ++ X)).take e = (c0 :: tl).take e := by
      rw [← List.cons_append, List.take_append_of_le_length (by omega)]
    have hnot2 : ¬ e ≥ (c0 :: (tl ++ X)).length := by
      simp at hlen ⊢; omega
    simp only [List.cons_append, parseRange]
    rw [hdrop, h3 X]
    simp only [Outcome.bind_ok]
    rw [if_neg hnot2, htake]
    exact h


theorem Parse.wrapLast_next {wrap : Acceptor → Acceptor} {out out2 : List Acceptor}
    {rest rest2 : Str} (h : Parse.wrapLast wrap out rest = .next out2 rest2) :
    rest2 = rest ∧ ∀ X, Parse.wrapLast wrap out X = .next out2 X := by
  unfold Parse.wrapLast at h ⊢
  cases hl : out.getLast? with
  | none => simp [hl] at h
  | some x =>
    simp only [hl, Parse.Step.next.injEq] at h
    obtain ⟨rfl, rfl⟩ := h
    simp

theorem Parse.wrapLast_ne_alt {wrap : Acceptor → Acceptor} {out out2 : List Acceptor}
    {rest rest2 : Str} : Parse.wrapLast wrap out rest ≠ .alt out2 rest2 := by
  unfold Parse.wrapLast
  cases out.getLast? <;> simp

theorem Parse.step_alt {out out2 : List Acceptor} {ch : UInt8} {rest rest2 : Str}
    (h : Parse.step out ch rest = .alt out2 rest2) : ch = 124 ∧ out2 = out ∧ rest2 = rest := by
  by_cases h1 : ch = 46
  · simp only [Parse.step, ↓reduceIte] at h
    simp only [if_pos h1] at h
    cases h
  by_cases h2 : ch = 42
  · simp only [Parse.step, h1, ↓reduceIte] at h
    simp only [if_pos h2] at h
    exact absurd h Parse.wrapLast_ne_alt
  by_cases h3 : ch = 43
  · simp only [Parse.step, h1, h2, ↓reduceIte] at h
    simp only [if_pos h3] at h
    exact absurd h Parse.wrapLast_ne_alt
  by_cases h4 : ch = 63
  · simp only [Parse.step, h1, h2, h3, ↓reduceIte] at h
    simp only [if_pos h4] at h
    exact absurd h Parse.wrapLast_ne_alt
  by_cases h5 : ch = 124
  · simp only [Parse.step, h1, h2, h3, h4, ↓reduceIte] at h
    simp only [if_pos h5] at h
    simp only [Parse.Step.alt.injEq] at h
    exact ⟨h5, h.1.symm, h.2.symm⟩
  by_cases h6 : ch = 123
  · simp only [Parse.step, h1, h2, h3, h4, h5, ↓reduceIte] at h
    simp only [if_pos h6] at h
    revert h
    split
    · simp
    · split
      · split <;> simp
      all_goals simp
  by_cases h7 : ch = 91
  · simp only [Parse.step, h1, h2, h3, h4, h5, h6, ↓reduceIte] at h
    simp only [if_pos h7] at h
    revert h
    split
    · split_ifs <;> simp
    all_goals simp
  by_cases h8 : ch = 92
  · simp only [Parse.step, h1, h2, h3, h4, h5, h6, h7, ↓reduceIte] at h
    simp only [if_pos h8] at h
    revert h
    split <;> simp
  simp only [Parse.step, h1, h2, h3, h4, h5, h6, h7, h8, ↓reduceIte] at h
  cases h

theorem Parse.step_next {out out2 : List Acceptor} {ch : UInt8} {rest rest2 : Str}
    (h : Parse.step out ch rest = .next out2 rest2) :
    rest2 <:+ rest ∧ ∀ X, Parse.step out ch (rest ++ X) = .next out2 (rest2 ++ X) := by
  by_cases h1 : ch = 46
  · simp only [Parse.step, ↓reduceIte] at h ⊢
    simp only [if_pos h1] at h ⊢
    simp only [Parse.Step.next.injEq] at h ⊢
    obtain ⟨rfl, rfl⟩ := h
    exact ⟨List.suffix_refl _, fun X => ⟨rfl, rfl⟩⟩
  by_cases h2 : ch = 42
  · simp only [Parse.step, h1, ↓reduceIte] at h ⊢
    simp only [if_pos h2] at h ⊢
    obtain ⟨rfl, hw⟩ := Parse.wrapLast_next h
    exact ⟨List.suffix_refl _, fun X => hw _⟩
  by_cases h3 : ch = 43
  · simp only [Parse.step, h1, h2, ↓reduceIte] at h ⊢
    simp only [if_pos h3] at h ⊢
    obtain ⟨rfl, hw⟩ := Parse.wrapLast_next h
    exact ⟨List.suffix_refl _, fun X => hw _⟩
  by_cases h4 : ch = 63
  · simp only [Parse.step, h1, h2, h3, ↓reduceIte] at h ⊢
    simp only [if_pos h4] at h ⊢
    obtain ⟨rfl, hw⟩ := Parse.wrapLast_next h
    exact ⟨List.suffix_refl _, fun X => hw _⟩
  by_cases h5 : ch = 124
  · simp only [Parse.step, h1, h2, h3, h4, ↓reduceIte] at h
    simp only [if_pos h5] at h
    cases h
  by_cases h6 : ch = 123
  · simp only [Parse.step, h1, h2, h3, h4, h5, ↓reduceIte] at h ⊢
    simp only [if_pos h6] at h ⊢
    cases hl : out.getLast? with
    | none => simp [hl] at h
    | some x =>
      simp only [hl] at h ⊢
      cases hs : fmt.Sscanf rest with
      | ok p =>
        obtain ⟨lo, hi⟩ := p
        simp only [hs] at h
        cases hb : Parse.skipBrace rest with
        | none => simp [hb] at h
        | some r =>
          simp only [hb, Parse.Step.next.injEq] at h
          obtain ⟨rfl, rfl⟩ := h
          obtain ⟨-, b2, b3, b4⟩ := Parse.skipBrace_spec _ _ hb
          refine ⟨b2, fun X => ?_⟩
          rw [fmt.Sscanf_append X rest b3, hs]
          simp [b4]
      | error m => simp [hs] at h
      | panicked => simp [hs] at h
      | diverge => simp [hs] at h
  by_cases h7 : ch = 91
  · simp only [Parse.step, h1, h2, h3, h4, h5, h6, ↓reduceIte] at h ⊢
    simp only [if_pos h7] at h ⊢
    cases hp : parseRange rest with
    | ok p =>
      obtain ⟨m, idx⟩ := p
      obtain ⟨p1, p2, -, p4⟩ := parseRange_spec _ _ hp
      simp only [hp] at h
      have hn : ¬ idx < 0 := by simpa using p1
      have hn2 : ¬ idx.toNat > rest.length := by simpa using p2
      rw [if_neg hn, if_neg hn2] at h
      simp only [Parse.Step.next.injEq] at h
      obtain ⟨rfl, rfl⟩ := h
      refine ⟨List.drop_suffix _ _, fun X => ?_⟩
      have hn3 : ¬ idx.toNat > (rest ++ X).length := by
        simp at p2 ⊢; omega
      rw [p4 X]
      simp only []
      rw [if_neg hn, if_neg hn3, List.drop_append_of_le_length p2]
    | error m => simp [hp] at h
    | panicked => simp [hp] at h
    | diverge => simp [hp] at h
  by_cases h8 : ch = 92
  · simp only [Parse.step, h1, h2, h3, h4, h5, h6, h7, ↓reduceIte] at h ⊢
    simp only [if_pos h8] at h ⊢
    cases rest with
    | nil => simp at h
    | cons c r =>
      simp only [Parse.Step.next.injEq] at h
      obtain ⟨rfl, rfl⟩ := h
      exact ⟨List.suffix_cons _ _, fun X => rfl⟩
  simp only [Parse.step, h1, h2, h3, h4, h5, h6, h7, h8, ↓reduceIte, Parse.Step.next.injEq] at h ⊢
  obtain ⟨rfl, rfl⟩ := h
  exact ⟨List.suffix_refl _, fun X => ⟨rfl, rfl⟩⟩


/-! ### The fuel of the loop of `Parse` -/

@[simp] theorem Parse.loop_nil (fuel : Nat) (out : List Acceptor) :
    Parse.loop fuel out [] = .ok out := by
  cases fuel <;> rfl

theorem Parse.loop_cons (fuel : Nat) (out : List Acceptor) (ch : UInt8) (input : Str) :
    Parse.loop (fuel + 1) out (ch :: input) =
      match Parse.step out ch input with
      | .next out2 rest => Parse.loop fuel out2 rest
      | .alt left rest =>
        match Parse.loop fuel [] rest with
        | .ok right => .ok [.Pipe (.Sequence left) (.Sequence right)]
        | .error _ => .ok [.Pipe (.Sequence left) (.Sequence [])]
        | .panicked => .panicked
        | .diverge => .diverge
      | .fail msg => .error msg
      | .crash => .panicked := rfl

theorem Parse.loop_succ : ∀ (fuel : Nat) (out : List Acceptor) (input : Str),
    input.length ≤ fuel → Parse.loop (fuel + 1) out input = Parse.loop fuel out input
  | _, out, [], _ => by simp
  | 0, _, _ :: _, h => by simp at h
  | fuel + 1, out, ch :: rest, h => by
    have hr : rest.length ≤ fuel := by simpa using h
    rw [Parse.loop_cons, Parse.loop_cons]
    cases hs : Parse.step out ch rest with
    | next out2 rest2 =>
      have := (Parse.step_next hs).1.length_le
      exact Parse.loop_succ fuel out2 rest2 (by omega)
    | alt left rest2 =>
      obtain ⟨-, -, rfl⟩ := Parse.step_alt hs
      simp only [Parse.loop_succ fuel [] rest2 hr]
    | fail msg => rfl
    | crash => rfl

theorem Parse.loop_fuel (out : List Acceptor) (input : Str) :
    ∀ d : Nat, Parse.loop (input.length + d) out input = Parse.loop input.length out input
  | 0 => rfl
  | d + 1 => by
    rw [← Nat.add_assoc, Parse.loop_succ _ _ _ (by omega)]
    exact Parse.loop_fuel out input d

theorem Parse.loop_of_le (out : List Acceptor) (input : Str) (fuel : Nat)
    (h : input.length ≤ fuel) : Parse.loop fuel out input = Parse.loop input.length out input := by
  obtain ⟨d, rfl⟩ := Nat.exists_eq_add_of_le h
  exact Parse.loop_fuel out input d

theorem Parse.loop_append : ∀ (n : Nat) (out : List Acceptor) (L : Str) (l : List Acceptor),
    L.length ≤ n → (124 : UInt8) ∉ L → Parse.loop n out L = .ok l →
      ∀ X, Parse.loop (n + X.length) out (L ++ X) = Parse.loop X.length l X
  | n, out, [], l, _, _, h => by
    intro X
    simp only [Parse.loop_nil, Outcome.ok.injEq] at h
    subst h
    simpa using Parse.loop_of_le out X (n + X.length) (by omega)
  | 0, _, _ :: _, _, h, _, _ => by simp at h
  | n + 1, out, ch :: rest, l, hlen, hno, h => by
    intro X
    have hr : rest.length ≤ n := by simpa using hlen
    have e : n + 1 + X.length = (n + X.length) + 1 := by omega
    rw [List.cons_append, e, Parse.loop_cons]
    rw [Parse.loop_cons] at h
    cases hs : Parse.step out ch rest with
    | next out2 rest2 =>
      obtain ⟨s1, s2⟩ := Parse.step_next hs
      rw [hs] at h
      rw [s2 X]
      have := s1.length_le
      exact Parse.loop_append n out2 rest2 l (by omega)
        (fun hm => hno (List.mem_cons_of_mem _ (s1.subset hm))) h X
    | alt left rest2 =>
      obtain ⟨rfl, -, -⟩ := Parse.step_alt hs
      exact absurd (List.mem_cons_self _ _) hno
    | fail msg => rw [hs] at h; cases h
    | crash => rw [hs] at h; cases h

theorem Parse.step_pipe (out : List Acceptor) (input : Str) :
    Parse.step out 124 input = .alt out input := rfl

/-- What `Parse` does at the first `|` of a pattern whose left part `L` parses to `l`:
the rest is parsed by a recursive call whose error value is not looked at. -/
theorem Parse_alt (L R : Str) (l : Regexp) (hL : (124 : UInt8) ∉ L) (h1 : Parse L = .ok l) :
    Parse (L ++ 124 :: R) =
      match Parse R with
      | .ok right => .ok [.Pipe (.Sequence l) (.Sequence right)]
      | .error _ => .ok [.Pipe (.Sequence l) (.Sequence [])]
      | .panicked => .panicked
      | .diverge => .diverge := by
  unfold Parse at *
  have e : (L ++ 124 :: R).length = L.length + (124 :: R).length := by simp
  rw [e, Parse.loop_append L.length [] L l (Nat.le_refl _) hL h1 (124 :: R)]
  rw [List.length_cons, Parse.loop_cons, Parse.step_pipe]
  rfl


/-! ### String sets -/

theorem stringset.mem_Add {s : Set} {k x : Str} : x ∈ Add s k ↔ x ∈ s ∨ x = k := by
  unfold Add
  split_ifs with h
  · constructor
    · exact Or.inl
    · rintro (h1 | rfl)
      · exact h1
      · exact h
  · simp

theorem stringset.nodup_Add {s : Set} {k : Str} (h : s.Nodup) : (Add s k).Nodup := by
  unfold Add
  split_ifs with hk
  · exact h
  · exact List.Nodup.append h (List.nodup_singleton k) (by simpa using hk)

theorem stringset.mem_foldl_Add : ∀ (t : List Str) (s : Set) (x : Str),
    x ∈ t.foldl Add s ↔ x ∈ s ∨ x ∈ t
  | [], s, x => by simp
  | k :: t, s, x => by
    rw [List.foldl_cons, stringset.mem_foldl_Add t, stringset.mem_Add]
    simp only [List.mem_cons]
    tauto

theorem stringset.mem_Union {s t : Set} {x : Str} : x ∈ Union s t ↔ x ∈ s ∨ x ∈ t :=
  stringset.mem_foldl_Add t s x

theorem stringset.mem_New {ss : List Str} {x : Str} : x ∈ New ss ↔ x ∈ ss := by
  unfold New
  rw [stringset.mem_foldl_Add]
  simp

@[simp] theorem stringset.New_nil : New [] = [] := rfl

@[simp] theorem stringset.New_singleton (x : Str) : New [x] = [x] := rfl

theorem unionOver_spec (f : Str → Outcome Set) (P : Str → Str → Prop) :
    ∀ (next : List Str) (out : Set),
      (∀ n ∈ next, ∃ r, f n = .ok r ∧ ∀ u, u ∈ r ↔ P n u) →
        ∃ res, unionOver f next out = .ok res ∧
          ∀ u, u ∈ res ↔ u ∈ out ∨ ∃ n ∈ next, P n u
  | [], out, _ => ⟨out, rfl, by simp⟩
  | n :: rest, out, h => by
    obtain ⟨r, hr, hP⟩ := h n (List.mem_cons_self _ _)
    obtain ⟨res, h1, h2⟩ := unionOver_spec f P rest (Union out r)
      (fun m hm => h m (List.mem_cons_of_mem _ hm))
    refine ⟨res, by simp [unionOver, hr, h1], fun u => ?_⟩
    rw [h2, stringset.mem_Union, hP]
    simp only [List.mem_cons, exists_eq_or_imp]
    tauto

/-! ### The work-queue loop of `Star.Accept` -/

theorem Star.foldl_visit : ∀ (next : List Str) (set : Set) (queue : List Str),
    (set.Nodup → (next.foldl Star.visit (set, queue)).1.Nodup) ∧
    (∀ x, x ∈ (next.foldl Star.visit (set, queue)).1 ↔ x ∈ set ∨ x ∈ next) ∧
    (∀ x, x ∈ (next.foldl Star.visit (set, queue)).2 ↔ x ∈ queue ∨ (x ∈ next ∧ x ∉ set)) ∧
    (next.foldl Star.visit (set, queue)).2.length + set.length =
      queue.length + (next.foldl Star.visit (set, queue)).1.length
  | [], set, queue => by simp
  | n :: rest, set, queue => by
    by_cases hn : n ∈ set
    · have hv : Star.visit (set, queue) n = (set, queue) := by simp [Star.visit, Has, hn]
      rw [List.foldl_cons, hv]
      obtain ⟨h1, h2, h3, h4⟩ := Star.foldl_visit rest set queue
      refine ⟨h1, fun x => ?_, fun x => ?_, h4⟩
      · rw [h2]; simp only [List.mem_cons]
        constructor
        · rintro (h | h)
          · exact Or.inl h
          · exact Or.inr (Or.inr h)
        · rintro (h | rfl | h)
          · exact Or.inl h
          · exact Or.inl hn
          · exact Or.inr h
      · rw [h3]; simp only [List.mem_cons]
        constructor
        · rintro (h | ⟨h, h'⟩)
          · exact Or.inl h
          · exact Or.inr ⟨Or.inr h, h'⟩
        · rintro (h | ⟨rfl | h, h'⟩)
          · exact Or.inl h
          · exact absurd hn h'
          · exact Or.inr ⟨h, h'⟩
    · have hv : Star.visit (set, queue) n = (set ++ [n], queue ++ [n]) := by
        simp [Star.visit, Has, stringset.Add, hn]
      rw [List.foldl_cons, hv]
      obtain ⟨h1, h2, h3, h4⟩ := Star.foldl_visit rest (set ++ [n]) (queue ++ [n])
      refine ⟨fun hs => h1 (List.Nodup.append hs (List.nodup_singleton n) (by simpa using hn)),
        fun x => ?_, fun x => ?_, ?_⟩
      · rw [h2]; simp only [List.mem_append, List.mem_singleton, List.mem_cons]
        tauto
      · rw [h3]; simp only [List.mem_append, List.mem_singleton, List.mem_cons]
        by_cases hx : x = n
        · subst hx; tauto
        · tauto
      · simp only [List.length_append, List.length_singleton] at h4
        omega

theorem suffix_of_reach {R : Str → Str → Prop} (hR : ∀ s u, R s u → u <:+ s) {s u : Str}
    (h : Relation.ReflTransGen R s u) : u <:+ s := by
  induction h with
  | refl => exact List.suffix_refl _
  | tail _ hbc ih => exact (hR _ _ hbc).trans ih

theorem length_le_of_suffixes {cs : Str} {l : List Str} (hn : l.Nodup)
    (hs : ∀ x ∈ l, x <:+ cs) : l.length ≤ cs.length + 1 := by
  have hsub : l ⊆ cs.tails := fun x hx => (List.mem_tails _ _).2 (hs x hx)
  have := (List.subperm_of_subset hn hsub).length_le
  simpa using this

theorem Star.loop_spec (f : Str → Outcome Set) (R : Str → Str → Prop) (cs : Str)
    (hR : ∀ s u, R s u → u <:+ s)
    (hf : ∀ x, x <:+ cs → ∃ r, f x = .ok r ∧ ∀ u, u ∈ r ↔ R x u) :
    ∀ (fuel : Nat) (set : Set) (queue : List Str),
      set.Nodup → cs ∈ set → (∀ x ∈ set, Relation.ReflTransGen R cs x) →
      (∀ x ∈ queue, x ∈ set) → (∀ x ∈ set, x ∉ queue → ∀ u, R x u → u ∈ set) →
      queue.length + (cs.length + 1 - set.length) ≤ fuel →
      ∃ res, Star.loop f fuel set queue = .ok res ∧
        ∀ u, u ∈ res ↔ Relation.ReflTransGen R cs u
  | fuel, set, [], _, hcs, hreach, _, hclosed, _ => by
    refine ⟨set, by cases fuel <;> rfl, fun u => ⟨hreach u, fun h => ?_⟩⟩
    induction h with
    | refl => exact hcs
    | tail _ hbc ih => exact hclosed _ ih (by simp) _ hbc
  | 0, _, _ :: _, _, _, _, _, _, hfuel => by simp at hfuel
  | fuel + 1, set, popd :: queue, hnd, hcs, hreach, hq, hclosed, hfuel => by
    have hpop : popd ∈ set := hq popd (List.mem_cons_self _ _)
    obtain ⟨next, hnext, hmem⟩ := hf popd (suffix_of_reach hR (hreach popd hpop))
    obtain ⟨v1, v2, v3, v4⟩ := Star.foldl_visit next set queue
    have hreach2 : ∀ x ∈ (next.foldl Star.visit (set, queue)).1,
        Relation.ReflTransGen R cs x := by
      intro x hx
      rcases (v2 x).1 hx with h | h
      · exact hreach x h
      · exact Relation.ReflTransGen.tail (hreach popd hpop) ((hmem x).1 h)
    have hbound := length_le_of_suffixes (v1 hnd)
      (fun x hx => suffix_of_reach hR (hreach2 x hx))
    have ih := Star.loop_spec f R cs hR hf fuel (next.foldl Star.visit (set, queue)).1
      (next.foldl Star.visit (set, queue)).2 (v1 hnd) ((v2 cs).2 (Or.inl hcs)) hreach2
      (fun x hx => by
        rcases (v3 x).1 hx with h | h
        · exact (v2 x).2 (Or.inl (hq x (List.mem_cons_of_mem _ h)))
        · exact (v2 x).2 (Or.inr h.1))
      (fun x hx hxq u hu => by
        rcases (v2 x).1 hx with h | h
        · by_cases hxp : x = popd
          · subst hxp
            exact (v2 u).2 (Or.inr ((hmem u).2 hu))
          · have hxq2 : x ∉ popd :: queue := by
              intro hc
              rcases List.mem_cons.1 hc with h' | h'
              · exact hxp h'
              · exact hxq ((v3 x).2 (Or.inl h'))
            exact (v2 u).2 (Or.inl (hclosed x h hxq2 u hu))
        · by_cases hxs : x ∈ set
          · by_cases hxp : x = popd
            · subst hxp
              exact (v2 u).2 (Or.inr ((hmem u).2 hu))
            · have hxq2 : x ∉ popd :: queue := by
                intro hc
                rcases List.mem_cons.1 hc with h' | h'
                · exact hxp h'
                · exact hxq ((v3 x).2 (Or.inl h'))
              exact (v2 u).2 (Or.inl (hclosed x hxs hxq2 u hu))
          · exact absurd ((v3 x).2 (Or.inr ⟨h, hxs⟩)) hxq)
      (by
        simp only [List.length_cons] at hfuel
        omega)
    obtain ⟨res, hres, hspec⟩ := ih
    exact ⟨res, by simp [Star.loop, hnext, hres], hspec⟩

theorem Star.run_closure (f : Str → Outcome Set) (R : Str → Str → Prop) (cs : Str) (fuel : Nat)
    (hR : ∀ s u, R s u → u <:+ s)
    (hf : ∀ x, x <:+ cs → ∃ r, f x = .ok r ∧ ∀ u, u ∈ r ↔ R x u)
    (hfuel : cs.length < fuel) :
    ∃ res, Star.run f fuel cs = .ok res ∧ ∀ u, u ∈ res ↔ Relation.ReflTransGen R cs u := by
  unfold Star.run
  apply Star.loop_spec f R cs hR hf fuel
  · simp
  · simp
  · intro x hx
    simp at hx
    subst hx
    exact Relation.ReflTransGen.refl
  · simp
  · intro x hx hx2
    simp at hx hx2
    exact absurd hx hx2
  · simp
    omega


/-! ### The two loops of `Count.Accept` -/

theorem incr_of_lt {i : Int} (h1 : minInt ≤ i) (h2 : i < maxInt) : incr i = i + 1 := by
  simp only [incr, minInt, maxInt] at *
  omega

theorem incr_range (i : Int) : minInt ≤ incr i ∧ incr i ≤ maxInt := by
  simp only [incr, minInt, maxInt]
  omega

theorem suffix_of_Reach {R : Str → Str → Prop} (hR : ∀ s u, R s u → u <:+ s) :
    ∀ (k : Nat) (s u : Str), Reach R k s u → u <:+ s
  | 0, s, u, h => by
    simp only [Reach] at h
    subst h
    exact List.suffix_refl _
  | k + 1, s, u, h => by
    obtain ⟨t, h1, h2⟩ := h
    exact (hR _ _ h2).trans (suffix_of_Reach hR k s t h1)

theorem reach_iff_Reach {R : Str → Str → Prop} {s u : Str} :
    Relation.ReflTransGen R s u ↔ ∃ k, Reach R k s u := by
  constructor
  · intro h
    induction h with
    | refl => exact ⟨0, rfl⟩
    | tail _ hbc ih =>
      obtain ⟨k, hk⟩ := ih
      exact ⟨k + 1, _, hk, hbc⟩
  · rintro ⟨k, hk⟩
    induction k generalizing u with
    | zero =>
      simp only [Reach] at hk
      subst hk
      exact Relation.ReflTransGen.refl
    | succ k ih =>
      obtain ⟨t, h1, h2⟩ := hk
      exact Relation.ReflTransGen.tail (ih h1) h2

theorem Count.fill_spec (f : Str → Outcome Set) (R : Str → Str → Prop) (cs : Str)
    (max : Int) (hmax : max ≤ maxInt) (hR : ∀ s u, R s u → u <:+ s)
    (hf : ∀ x, x <:+ cs → ∃ r, f x = .ok r ∧ ∀ u, u ∈ r ↔ R x u) :
    ∀ (k j : Nat) (depths : Int → Set), max ≤ (j : Int) + (k : Int) →
      (∀ m : Nat, m ≤ j → ∀ u, u ∈ depths (m : Int) ↔ Reach R m cs u) →
      (∀ z : Int, z < 0 ∨ (j : Int) < z → depths z = []) →
      ∃ d, Count.fill f max k (j : Int) depths = .ok d ∧
        (∀ m : Nat, m ≤ j ∨ (m : Int) ≤ max → ∀ u, u ∈ d (m : Int) ↔ Reach R m cs u) ∧
        (∀ z : Int, z < 0 ∨ ((j : Int) < z ∧ max < z) → d z = [])
  | 0, j, depths, hk, h1, h2 => by
    have hj : ¬ (j : Int) < max := by omega
    refine ⟨depths, by simp only [Count.fill, if_neg hj], fun m hm => h1 m (by omega),
      fun z hz => h2 z (by omega)⟩
  | k + 1, j, depths, hk, h1, h2 => by
    by_cases hj : (j : Int) < max
    · have hinc : incr (j : Int) = ((j + 1 : Nat) : Int) := by
        rw [incr_of_lt (by simp only [minInt]; omega) (by omega)]
        push_cast
        rfl
      obtain ⟨tmp, ht, hmem⟩ := unionOver_spec f R (depths (j : Int)) (New [])
        (fun n hn => hf n (suffix_of_Reach hR j cs n ((h1 j (Nat.le_refl _) n).1 hn)))
      obtain ⟨d, hd, d1, d2⟩ := Count.fill_spec f R cs max hmax hR hf k (j + 1)
        (Function.update depths ((j + 1 : Nat) : Int) tmp) (by push_cast at hk ⊢; omega)
        (fun m hm u => by
          by_cases hmj : m = j + 1
          · subst hmj
            rw [Function.update_same, hmem]
            simp only [stringset.New_nil, List.not_mem_nil, false_or, Reach]
            constructor
            · rintro ⟨n, hn, hr⟩
              exact ⟨n, (h1 j (Nat.le_refl _) n).1 hn, hr⟩
            · rintro ⟨n, hn, hr⟩
              exact ⟨n, (h1 j (Nat.le_refl _) n).2 hn, hr⟩
          · have hne : (m : Int) ≠ ((j + 1 : Nat) : Int) := by omega
            rw [Function.update_noteq hne]
            exact h1 m (by omega) u)
        (fun z hz => by
          have hne : z ≠ ((j + 1 : Nat) : Int) := by omega
          rw [Function.update_noteq hne]
          exact h2 z (by omega))
      refine ⟨d, ?_, fun m hm => d1 m (by omega), fun z hz => d2 z (by omega)⟩
      simp only [Count.fill, if_pos hj, ht, Outcome.bind_ok, hinc]
      exact hd
    · refine ⟨depths, by simp only [Count.fill, if_neg hj], fun m hm => h1 m (by omega),
        fun z hz => h2 z (by omega)⟩

theorem Count.collect_spec (d : Int → Set) (max : Int) (hmax : max < maxInt) :
    ∀ (k : Nat) (i : Int) (out : Set), minInt ≤ i → max + 1 ≤ i + (k : Int) →
      ∃ res, Count.collect d max k i out = .ok res ∧
        ∀ u, u ∈ res ↔ u ∈ out ∨ ∃ z : Int, i ≤ z ∧ z ≤ max ∧ u ∈ d z
  | 0, i, out, _, hk => by
    have hi : ¬ i ≤ max := by omega
    refine ⟨out, by simp only [Count.collect, if_neg hi], fun u => ⟨Or.inl, ?_⟩⟩
    rintro (h | ⟨z, h1, h2, -⟩)
    · exact h
    · omega
  | k + 1, i, out, hmin, hk => by
    by_cases hi : i ≤ max
    · have hinc : incr i = i + 1 := incr_of_lt hmin (by omega)
      obtain ⟨res, hres, hmem⟩ := Count.collect_spec d max hmax k (i + 1) (Union out (d i))
        (by omega) (by push_cast at hk; omega)
      refine ⟨res, by simp only [Count.collect, if_pos hi, hinc]; exact hres, fun u => ?_⟩
      rw [hmem, stringset.mem_Union]
      constructor
      · rintro ((h | h) | ⟨z, h1, h2, h3⟩)
        · exact Or.inl h
        · exact Or.inr ⟨i, le_refl _, hi, h⟩
        · exact Or.inr ⟨z, by omega, h2, h3⟩
      · rintro (h | ⟨z, h1, h2, h3⟩)
        · exact Or.inl (Or.inl h)
        · by_cases hz : z = i
          · subst hz
            exact Or.inl (Or.inr h3)
          · exact Or.inr ⟨z, by omega, h2, h3⟩
    · refine ⟨out, by simp only [Count.collect, if_neg hi], fun u => ⟨Or.inl, ?_⟩⟩
      rintro (h | ⟨z, h1, h2, -⟩)
      · exact h
      · omega

theorem Count.collect_diverge (d : Int → Set) : ∀ (k : Nat) (i : Int) (out : Set),
    i ≤ maxInt → Count.collect d maxInt k i out = .diverge
  | 0, i, out, hi => by simp only [Count.collect, if_pos hi]
  | k + 1, i, out, hi => by
    simp only [Count.collect, if_pos hi]
    exact Count.collect_diverge d k (incr i) _ (incr_range i).2

theorem Count.run_diverge (f : Str → Outcome Set) (min : Int) (hmin : min ≤ maxInt) (cs : Str)
    (set : Set) : Count.run f min maxInt cs ≠ .ok set := by
  intro h
  obtain ⟨d, -, h2⟩ := Outcome.bind_eq_ok h
  rw [Count.collect_diverge d _ min _ hmin] at h2
  cases h2

theorem Count.run_union (f : Str → Outcome Set) (R : Str → Str → Prop) (cs : Str)
    (min max : Int) (hmin : minInt ≤ min) (hmax : max < maxInt)
    (hR : ∀ s u, R s u → u <:+ s)
    (hf : ∀ x, x <:+ cs → ∃ r, f x = .ok r ∧ ∀ u, u ∈ r ↔ R x u) :
    ∃ res, Count.run f min max cs = .ok res ∧
      ∀ u, u ∈ res ↔ ∃ k : Nat, min ≤ (k : Int) ∧ (k : Int) ≤ max ∧ Reach R k cs u := by
  obtain ⟨d, hd, d1, d2⟩ := Count.fill_spec f R cs max (le_of_lt hmax) hR hf max.toNat 0
    (Function.update (fun _ => []) 0 (New [cs])) (by omega)
    (fun m hm u => by
      have : m = 0 := by omega
      subst this
      simp [Reach])
    (fun z hz => by
      have hne : z ≠ 0 := by omega
      rw [Function.update_noteq hne])
  have hd2 : Count.fill f max max.toNat 0 (Function.update (fun _ => []) 0 (New [cs])) =
      .ok d := hd
  obtain ⟨res, hres, hmem⟩ := Count.collect_spec d max hmax (max - min + 1).toNat min (New [])
    hmin (by omega)
  refine ⟨res, by simp only [Count.run, hd2, Outcome.bind_ok]; exact hres, fun u => ?_⟩
  rw [hmem]
  simp only [stringset.New_nil, List.not_mem_nil, false_or]
  constructor
  · rintro ⟨z, h1, h2, h3⟩
    have hz : 0 ≤ z := by
      by_contra hc
      rw [d2 z (by omega)] at h3
      simp at h3
    obtain ⟨m, rfl⟩ := Int.eq_ofNat_of_zero_le hz
    exact ⟨m, h1, h2, (d1 m (Or.inr h2) u).1 h3⟩
  · rintro ⟨m, h1, h2, h3⟩
    exact ⟨m, h1, h2, (d1 m (Or.inr h2) u).2 h3⟩

/-! ### `Accept` computes the matching relation -/

mutual
theorem Acceptor.Den_suffix : ∀ (a : Acceptor) (s u : Str), a.Den s u → u <:+ s
  | .Dot, s, u, h => by
    simp only [Acceptor.Den] at h
    obtain ⟨c, rfl, -⟩ := h
    exact List.suffix_cons _ _
  | .Single c, s, u, h => by
    simp only [Acceptor.Den] at h
    subst h
    exact List.suffix_cons _ _
  | .Range lo hi, s, u, h => by
    simp only [Acceptor.Den] at h
    obtain ⟨c, rfl, -⟩ := h
    exact List.suffix_cons _ _
  | .Maybe mini, s, u, h => by
    simp only [Acceptor.Den] at h
    rcases h with rfl | h
    · exact List.suffix_refl _
    · exact Acceptor.Den_suffix mini s u h
  | .Star mini, s, u, h => by
    simp only [Acceptor.Den] at h
    exact suffix_of_reach (fun x y hxy => Acceptor.Den_suffix mini x y hxy) h
  | .Count mini min max, s, u, h => by
    simp only [Acceptor.Den] at h
    obtain ⟨k, -, -, hk⟩ := h
    exact suffix_of_Reach (fun x y hxy => Acceptor.Den_suffix mini x y hxy) k s u hk
  | .Plus mini, s, u, h => by
    simp only [Acceptor.Den] at h
    obtain ⟨t, h1, h2⟩ := h
    exact (suffix_of_reach (fun x y hxy => Acceptor.Den_suffix mini x y hxy) h2).trans
      (Acceptor.Den_suffix mini s t h1)
  | .Sequence l, s, u, h => by
    simp only [Acceptor.Den] at h
    exact Sequence.Den_seq_suffix l s u h
  | .Pipe left right, s, u, h => by
    simp only [Acceptor.Den] at h
    rcases h with h | h
    · exact Acceptor.Den_suffix left s u h
    · exact Acceptor.Den_suffix right s u h
  | .PipePlaceHolder, s, u, h => by
    simp only [Acceptor.Den] at h
theorem Sequence.Den_seq_suffix : ∀ (l : List Acceptor) (s u : Str), Sequence.Den l s u → u <:+ s
  | [], s, u, h => by
    simp only [Sequence.Den] at h
    subst h
    exact List.suffix_refl _
  | a :: as, s, u, h => by
    simp only [Sequence.Den] at h
    obtain ⟨t, h1, h2⟩ := h
    exact (Sequence.Den_seq_suffix as t u h2).trans (Acceptor.Den_suffix a s t h1)
end

theorem Acceptor.countsBelowMax_Count {mini : Acceptor} {min max : Int} :
    (Acceptor.Count mini min max).countsBelowMax = true ↔
      minInt ≤ min ∧ min ≤ maxInt ∧ minInt ≤ max ∧ max < maxInt ∧
        mini.countsBelowMax = true := by
  simp [Acceptor.countsBelowMax, and_assoc]

mutual
theorem Acceptor.Accept_spec (fuel : Nat) : ∀ (a : Acceptor), a.hasPlaceHolder = false →
    a.countsBelowMax = true → ∀ cs : Str, cs.length < fuel →
      ∃ set, a.Accept fuel cs = .ok set ∧ ∀ u, u ∈ set ↔ a.Den cs u
  | .Dot, _, _, cs, _ => by
    cases cs with
    | nil => exact ⟨[], rfl, by simp [Acceptor.Den]⟩
    | cons c rest =>
      by_cases hc : c = 0 ∨ c ≥ 0x80
      · refine ⟨[], by simp only [Acceptor.Accept, if_pos hc], fun u => ?_⟩
        simp only [Acceptor.Den, List.not_mem_nil, List.cons.injEq, false_iff]
        rintro ⟨c2, ⟨rfl, -⟩, h2⟩
        exact h2 hc
      · refine ⟨[rest], by simp only [Acceptor.Accept, if_neg hc]; rfl, fun u => ?_⟩
        simp only [Acceptor.Den, List.mem_singleton, List.cons.injEq]
        constructor
        · rintro rfl
          exact ⟨c, ⟨rfl, rfl⟩, hc⟩
        · rintro ⟨c2, ⟨rfl, rfl⟩, -⟩
          rfl
  | .Single c, _, _, cs, _ => by
    cases cs with
    | nil => exact ⟨[], rfl, by simp [Acceptor.Den]⟩
    | cons c0 rest =>
      by_cases hc : c ≠ c0
      · refine ⟨[], by simp only [Acceptor.Accept, if_pos hc], fun u => ?_⟩
        simp only [Acceptor.Den, List.not_mem_nil, List.cons.injEq, false_iff]
        exact fun h => hc h.1.symm
      · refine ⟨[rest], by simp only [Acceptor.Accept, if_neg hc]; rfl, fun u => ?_⟩
        have hc2 : c = c0 := by simpa using hc
        simp only [Acceptor.Den, List.mem_singleton, List.cons.injEq, hc2, true_and]
        exact eq_comm
  | .Range lo hi, _, _, cs, _ => by
    cases cs with
    | nil => exact ⟨[], rfl, by simp [Acceptor.Den]⟩
    | cons c rest =>
      by_cases hc : c < lo ∨ hi < c
      · refine ⟨[], by simp only [Acceptor.Accept, if_pos hc], fun u => ?_⟩
        simp only [Acceptor.Den, List.not_mem_nil, List.cons.injEq, false_iff]
        rintro ⟨c2, ⟨rfl, -⟩, h2⟩
        exact h2 hc
      · refine ⟨[rest], by simp only [Acceptor.Accept, if_neg hc]; rfl, fun u => ?_⟩
        simp only [Acceptor.Den, List.mem_singleton, List.cons.injEq]
        constructor
        · rintro rfl
          exact ⟨c, ⟨rfl, rfl⟩, hc⟩
        · rintro ⟨c2, ⟨rfl, rfl⟩, -⟩
          rfl
  | .Maybe mini, ha, hb, cs, hfuel => by
    simp only [Acceptor.hasPlaceHolder] at ha
    simp only [Acceptor.countsBelowMax] at hb
    obtain ⟨bs, hbs, hmem⟩ := Acceptor.Accept_spec fuel mini ha hb cs hfuel
    refine ⟨bs.foldl stringset.Add (New [cs]), by simp only [Acceptor.Accept, hbs]; rfl,
      fun u => ?_⟩
    rw [stringset.mem_foldl_Add, hmem]
    simp [Acceptor.Den]
  | .Star mini, ha, hb, cs, hfuel => by
    simp only [Acceptor.hasPlaceHolder] at ha
    simp only [Acceptor.countsBelowMax] at hb
    simp only [Acceptor.Accept, Acceptor.Den]
    exact Star.run_closure (mini.Accept fuel) (fun x y => mini.Den x y) cs fuel
      (fun x y hxy => Acceptor.Den_suffix mini x y hxy)
      (fun x hx => Acceptor.Accept_spec fuel mini ha hb x
        (Nat.lt_of_le_of_lt hx.length_le hfuel)) hfuel
  | .Count mini min max, ha, hb, cs, hfuel => by
    simp only [Acceptor.hasPlaceHolder] at ha
    obtain ⟨hb1, -, -, hb4, hb5⟩ := Acceptor.countsBelowMax_Count.1 hb
    simp only [Acceptor.Accept, Acceptor.Den]
    exact Count.run_union (mini.Accept fuel) (fun x y => mini.Den x y) cs min max hb1 hb4
      (fun x y hxy => Acceptor.Den_suffix mini x y hxy)
      (fun x hx => Acceptor.Accept_spec fuel mini ha hb5 x
        (Nat.lt_of_le_of_lt hx.length_le hfuel))
  | .Plus mini, ha, hb, cs, hfuel => by
    simp only [Acceptor.hasPlaceHolder] at ha
    simp only [Acceptor.countsBelowMax] at hb
    obtain ⟨next, hnext, hmem⟩ := Acceptor.Accept_spec fuel mini ha hb cs hfuel
    obtain ⟨res, hres, hspec⟩ := unionOver_spec (Star.run (mini.Accept fuel) fuel)
      (fun n u => Relation.ReflTransGen (fun x y => mini.Den x y) n u) next (New [])
      (fun n hn => by
        have hsuf : n <:+ cs := Acceptor.Den_suffix mini cs n ((hmem n).1 hn)
        have hlen : n.length < fuel := Nat.lt_of_le_of_lt hsuf.length_le hfuel
        exact Star.run_closure (mini.Accept fuel) (fun x y => mini.Den x y) n
          fuel (fun x y hxy => Acceptor.Den_suffix mini x y hxy)
          (fun x hx => Acceptor.Accept_spec fuel mini ha hb x
            (Nat.lt_of_le_of_lt hx.length_le hlen)) hlen)
    refine ⟨res, by simp only [Acceptor.Accept, hnext]; exact hres, fun u => ?_⟩
    rw [hspec]
    simp only [stringset.New_nil, List.not_mem_nil, false_or, Acceptor.Den]
    constructor
    · rintro ⟨n, hn, hr⟩
      exact ⟨n, (hmem n).1 hn, hr⟩
    · rintro ⟨n, hn, hr⟩
      exact ⟨n, (hmem n).2 hn, hr⟩
  | .Sequence l, ha, hb, cs, hfuel => by
    simp only [Acceptor.hasPlaceHolder] at ha
    simp only [Acceptor.countsBelowMax] at hb
    simp only [Acceptor.Accept, Acceptor.Den]
    exact Sequence.Accept_seq_spec fuel l ha hb cs hfuel
  | .Pipe left right, ha, hb, cs, hfuel => by
    simp only [Acceptor.hasPlaceHolder, Bool.or_eq_false_iff] at ha
    simp only [Acceptor.countsBelowMax, Bool.and_eq_true] at hb
    obtain ⟨l, hl, hlm⟩ := Acceptor.Accept_spec fuel left ha.1 hb.1 cs hfuel
    obtain ⟨r, hr, hrm⟩ := Acceptor.Accept_spec fuel right ha.2 hb.2 cs hfuel
    refine ⟨Union (Union (New []) l) r, by simp only [Acceptor.Accept, hl, hr]; rfl,
      fun u => ?_⟩
    rw [stringset.mem_Union, stringset.mem_Union, hlm, hrm]
    simp [Acceptor.Den]
  | .PipePlaceHolder, ha, _, _, _ => by
    simp [Acceptor.hasPlaceHolder] at ha
theorem Sequence.Accept_seq_spec (fuel : Nat) : ∀ (l : List Acceptor),
    Sequence.hasPlaceHolder l = false → Sequence.countsBelowMax l = true →
      ∀ cs : Str, cs.length < fuel →
        ∃ set, Sequence.Accept fuel l cs = .ok set ∧ ∀ u, u ∈ set ↔ Sequence.Den l cs u
  | [], _, _, cs, _ => ⟨[cs], rfl, by simp [Sequence.Den]⟩
  | a :: as, ha, hb, cs, hfuel => by
    simp only [Sequence.hasPlaceHolder, Bool.or_eq_false_iff] at ha
    simp only [Sequence.countsBelowMax, Bool.and_eq_true] at hb
    obtain ⟨next, hnext, hmem⟩ := Acceptor.Accept_spec fuel a ha.1 hb.1 cs hfuel
    obtain ⟨res, hres, hspec⟩ := unionOver_spec (Sequence.Accept fuel as)
      (fun n u => Sequence.Den as n u) next (New [])
      (fun n hn => Sequence.Accept_seq_spec fuel as ha.2 hb.2 n
        (Nat.lt_of_le_of_lt (Acceptor.Den_suffix a cs n ((hmem n).1 hn)).length_le hfuel))
    refine ⟨res, by simp only [Sequence.Accept, hnext]; exact hres, fun u => ?_⟩
    rw [hspec]
    simp only [stringset.New_nil, List.not_mem_nil, false_or, Sequence.Den]
    constructor
    · rintro ⟨n, hn, hr⟩
      exact ⟨n, (hmem n).1 hn, hr⟩
    · rintro ⟨n, hn, hr⟩
      exact ⟨n, (hmem n).2 hn, hr⟩
end

/-! ### Whatever `Accept` returns is a set of suffixes of its input -/

theorem unionOver_ok (f : Str → Outcome Set) : ∀ (next : List Str) (out res : Set),
    unionOver f next out = .ok res →
      (∀ n ∈ next, ∃ r, f n = .ok r) ∧
        ∀ u, u ∈ res ↔ u ∈ out ∨ ∃ n ∈ next, ∃ r, f n = .ok r ∧ u ∈ r
  | [], out, res, h => by
    simp only [unionOver, Outcome.ok.injEq] at h
    subst h
    simp
  | n :: rest, out, res, h => by
    simp only [unionOver] at h
    obtain ⟨r, hr, h2⟩ := Outcome.bind_eq_ok h
    obtain ⟨i1, i2⟩ := unionOver_ok f rest (Union out r) res h2
    refine ⟨fun m hm => ?_, fun u => ?_⟩
    · rcases List.mem_cons.1 hm with rfl | hm
      · exact ⟨r, hr⟩
      · exact i1 m hm
    · rw [i2, stringset.mem_Union]
      constructor
      · rintro ((h | h) | ⟨m, hm, r2, h3, h4⟩)
        · exact Or.inl h
        · exact Or.inr ⟨n, List.mem_cons_self _ _, r, hr, h⟩
        · exact Or.inr ⟨m, List.mem_cons_of_mem _ hm, r2, h3, h4⟩
      · rintro (h | ⟨m, hm, r2, h3, h4⟩)
        · exact Or.inl (Or.inl h)
        · rcases List.mem_cons.1 hm with rfl | hm
          · rw [hr] at h3
            cases h3
            exact Or.inl (Or.inr h4)
          · exact Or.inr ⟨m, hm, r2, h3, h4⟩

theorem Star.loop_suffix (f : Str → Outcome Set) (cs : Str)
    (hf : ∀ x r, f x = .ok r → ∀ m ∈ r, m <:+ x) :
    ∀ (fuel : Nat) (set : Set) (queue : List Str) (res : Set),
      (∀ x ∈ set, x <:+ cs) → (∀ x ∈ queue, x <:+ cs) →
        Star.loop f fuel set queue = .ok res → ∀ m ∈ res, m <:+ cs
  | fuel, set, [], res, hs, _, h => by
    have : Star.loop f fuel set [] = .ok set := by cases fuel <;> rfl
    rw [this] at h
    cases h
    exact hs
  | 0, set, _ :: _, res, _, _, h => by simp [Star.loop] at h
  | fuel + 1, set, popd :: queue, res, hs, hq, h => by
    simp only [Star.loop] at h
    obtain ⟨next, hnext, h2⟩ := Outcome.bind_eq_ok h
    obtain ⟨-, v2, v3, -⟩ := Star.foldl_visit next set queue
    have hn : ∀ x ∈ next, x <:+ cs := fun x hx =>
      (hf popd next hnext x hx).trans (hq popd (List.mem_cons_self _ _))
    refine Star.loop_suffix f cs hf fuel _ _ res (fun x hx => ?_) (fun x hx => ?_) h2
    · rcases (v2 x).1 hx with h | h
      · exact hs x h
      · exact hn x h
    · rcases (v3 x).1 hx with h | h
      · exact hq x (List.mem_cons_of_mem _ h)
      · exact hn x h.1

theorem Count.fill_suffix (f : Str → Outcome Set) (cs : Str) (max : Int)
    (hf : ∀ x r, f x = .ok r → ∀ m ∈ r, m <:+ x) :
    ∀ (k : Nat) (i : Int) (depths d : Int → Set),
      (∀ z, ∀ m ∈ depths z, m <:+ cs) → Count.fill f max k i depths = .ok d →
        ∀ z, ∀ m ∈ d z, m <:+ cs
  | 0, i, depths, d, hd, h => by
    by_cases hi : i < max
    · simp [Count.fill, hi] at h
    · simp only [Count.fill, if_neg hi, Outcome.ok.injEq] at h
      subst h
      exact hd
  | k + 1, i, depths, d, hd, h => by
    by_cases hi : i < max
    · simp only [Count.fill, if_pos hi] at h
      obtain ⟨tmp, htmp, h2⟩ := Outcome.bind_eq_ok h
      obtain ⟨-, hmem⟩ := unionOver_ok f _ _ _ htmp
      refine Count.fill_suffix f cs max hf k _ _ d (fun z m hm => ?_) h2
      by_cases hz : z = incr i
      · subst hz
        rw [Function.update_same] at hm
        rcases (hmem m).1 hm with h | ⟨n, hn, r, hr, hmr⟩
        · simp at h
        · exact (hf n r hr m hmr).trans (hd i n hn)
      · rw [Function.update_noteq hz] at hm
        exact hd z m hm
    · simp only [Count.fill, if_neg hi, Outcome.ok.injEq] at h
      subst h
      exact hd

theorem Count.collect_suffix (d : Int → Set) (cs : Str) (max : Int)
    (hd : ∀ z, ∀ m ∈ d z, m <:+ cs) :
    ∀ (k : Nat) (i : Int) (out res : Set), (∀ m ∈ out, m <:+ cs) →
      Count.collect d max k i out = .ok res → ∀ m ∈ res, m <:+ cs
  | 0, i, out, res, ho, h => by
    by_cases hi : i ≤ max
    · simp [Count.collect, hi] at h
    · simp only [Count.collect, if_neg hi, Outcome.ok.injEq] at h
      subst h
      exact ho
  | k + 1, i, out, res, ho, h => by
    by_cases hi : i ≤ max
    · simp only [Count.collect, if_pos hi] at h
      refine Count.collect_suffix d cs max hd k _ _ res (fun m hm => ?_) h
      rcases stringset.mem_Union.1 hm with h | h
      · exact ho m h
      · exact hd i m h
    · simp only [Count.collect, if_neg hi, Outcome.ok.injEq] at h
      subst h
      exact ho

theorem Count.run_suffix (f : Str → Outcome Set) (cs : Str) (min max : Int)
    (hf : ∀ x r, f x = .ok r → ∀ m ∈ r, m <:+ x) (res : Set)
    (h : Count.run f min max cs = .ok res) : ∀ m ∈ res, m <:+ cs := by
  obtain ⟨d, hd, h2⟩ := Outcome.bind_eq_ok h
  have hd2 := Count.fill_suffix f cs max hf _ _ _ d (fun z m hm => by
    by_cases hz : z = 0
    · subst hz
      rw [Function.update_same] at hm
      simp only [stringset.New_singleton, List.mem_singleton] at hm
      subst hm
      exact List.suffix_refl _
    · rw [Function.update_noteq hz] at hm
      simp at hm) hd
  exact Count.collect_suffix d cs max hd2 _ _ _ res (by simp) h2

theorem unionOver_suffix (f : Str → Outcome Set) (cs : Str)
    (hf : ∀ x r, f x = .ok r → ∀ m ∈ r, m <:+ x) (next res : Set)
    (hn : ∀ n ∈ next, n <:+ cs) (h : unionOver f next (New []) = .ok res) :
    ∀ m ∈ res, m <:+ cs := by
  obtain ⟨-, hmem⟩ := unionOver_ok f _ _ _ h
  intro m hm
  rcases (hmem m).1 hm with h | ⟨n, hn2, r, hr, hmr⟩
  · simp at h
  · exact (hf n r hr m hmr).trans (hn n hn2)

mutual
theorem Acceptor.Accept_members (fuel : Nat) : ∀ (a : Acceptor) (cs : Str) (set : Set),
    a.Accept fuel cs = .ok set → ∀ m ∈ set, m <:+ cs
  | .Dot, cs, set, h => by
    cases cs with
    | nil =>
      simp only [Acceptor.Accept, Outcome.ok.injEq] at h
      subst h
      simp
    | cons c rest =>
      by_cases hc : c = 0 ∨ c ≥ 0x80
      · simp only [Acceptor.Accept, if_pos hc, Outcome.ok.injEq] at h
        subst h
        simp
      · simp only [Acceptor.Accept, if_neg hc, Outcome.ok.injEq] at h
        subst h
        intro m hm
        simp only [stringset.New_singleton, List.mem_singleton] at hm
        subst hm
        exact List.suffix_cons _ _
  | .Single c, cs, set, h => by
    cases cs with
    | nil =>
      simp only [Acceptor.Accept, Outcome.ok.injEq] at h
      subst h
      simp
    | cons c0 rest =>
      by_cases hc : c ≠ c0
      · simp only [Acceptor.Accept, if_pos hc, Outcome.ok.injEq] at h
        subst h
        simp
      · simp only [Acceptor.Accept, if_neg hc, Outcome.ok.injEq] at h
        subst h
        intro m hm
        simp only [stringset.New_singleton, List.mem_singleton] at hm
        subst hm
        exact List.suffix_cons _ _
  | .Range lo hi, cs, set, h => by
    cases cs with
    | nil =>
      simp only [Acceptor.Accept, Outcome.ok.injEq] at h
      subst h
      simp
    | cons c rest =>
      by_cases hc : c < lo ∨ hi < c
      · simp only [Acceptor.Accept, if_pos hc, Outcome.ok.injEq] at h
        subst h
        simp
      · simp only [Acceptor.Accept, if_neg hc, Outcome.ok.injEq] at h
        subst h
        intro m hm
        simp only [stringset.New_singleton, List.mem_singleton] at hm
        subst hm
        exact List.suffix_cons _ _
  | .Maybe mini, cs, set, h => by
    simp only [Acceptor.Accept] at h
    obtain ⟨bs, hbs, h2⟩ := Outcome.bind_eq_ok h
    simp only [Outcome.ok.injEq] at h2
    subst h2
    intro m hm
    rcases (stringset.mem_foldl_Add _ _ _).1 hm with h | h
    · simp only [stringset.New_singleton, List.mem_singleton] at h
      subst h
      exact List.suffix_refl _
    · exact Acceptor.Accept_members fuel mini cs bs hbs m h
  | .Star mini, cs, set, h => by
    simp only [Acceptor.Accept, Star.run] at h
    exact Star.loop_suffix (mini.Accept fuel) cs
      (fun x r hr => Acceptor.Accept_members fuel mini x r hr) fuel _ _ set
      (by simp) (by simp) h
  | .Count mini min max, cs, set, h => by
    simp only [Acceptor.Accept] at h
    exact Count.run_suffix (mini.Accept fuel) cs min max
      (fun x r hr => Acceptor.Accept_members fuel mini x r hr) set h
  | .Plus mini, cs, set, h => by
    simp only [Acceptor.Accept] at h
    obtain ⟨next, hnext, h2⟩ := Outcome.bind_eq_ok h
    exact unionOver_suffix (Star.run (mini.Accept fuel) fuel) cs
      (fun x r hr => Star.loop_suffix (mini.Accept fuel) x
        (fun y r2 hr2 => Acceptor.Accept_members fuel mini y r2 hr2) fuel _ _ r
        (by simp) (by simp) hr) next set
      (Acceptor.Accept_members fuel mini cs next hnext) h2
  | .Sequence l, cs, set, h => by
    simp only [Acceptor.Accept] at h
    exact Sequence.Accept_seq_members fuel l cs set h
  | .Pipe left right, cs, set, h => by
    simp only [Acceptor.Accept] at h
    obtain ⟨l, hl, h2⟩ := Outcome.bind_eq_ok h
    obtain ⟨r, hr, h3⟩ := Outcome.bind_eq_ok h2
    simp only [Outcome.ok.injEq] at h3
    subst h3
    intro m hm
    rcases stringset.mem_Union.1 hm with h | h
    · rcases stringset.mem_Union.1 h with h | h
      · simp at h
      · exact Acceptor.Accept_members fuel left cs l hl m h
    · exact Acceptor.Accept_members fuel right cs r hr m h
  | .PipePlaceHolder, cs, set, h => by
    simp [Acceptor.Accept] at h
theorem Sequence.Accept_seq_members (fuel : Nat) : ∀ (l : List Acceptor) (cs : Str) (set : Set),
    Sequence.Accept fuel l cs = .ok set → ∀ m ∈ set, m <:+ cs
  | [], cs, set, h => by
    simp only [Sequence.Accept, Outcome.ok.injEq] at h
    subst h
    intro m hm
    simp only [stringset.New_singleton, List.mem_singleton] at hm
    subst hm
    exact List.suffix_refl _
  | a :: as, cs, set, h => by
    simp only [Sequence.Accept] at h
    obtain ⟨next, hnext, h2⟩ := Outcome.bind_eq_ok h
    exact unionOver_suffix (Sequence.Accept fuel as) cs
      (fun x r hr => Sequence.Accept_seq_members fuel as x r hr) next set
      (Acceptor.Accept_members fuel a cs next hnext) h2
end

/-- A chain of steps that never lengthen the string can be cut down to one step for each
byte that it removes. -/
theorem Reach_short {R : Str → Str → Prop} (hR : ∀ s u, R s u → u <:+ s) {s u : Str}
    (h : Relation.ReflTransGen R s u) : ∃ k, k + u.length ≤ s.length ∧ Reach R k s u := by
  induction h with
  | refl => exact ⟨0, by simp, rfl⟩
  | @tail t u _ hbc ih =>
    obtain ⟨k, hk, hr⟩ := ih
    have hsuf := hR _ _ hbc
    by_cases hlen : u.length = t.length
    · have : u = t := hsuf.eq_of_length hlen
      subst this
      exact ⟨k, hk, hr⟩
    · have := hsuf.length_le
      exact ⟨k + 1, by omega, t, hr, hbc⟩


/-! ### `Parse` builds no `PipePlaceHolder` -/

theorem Sequence.hasPlaceHolder_append : ∀ (l1 l2 : List Acceptor),
    Sequence.hasPlaceHolder (l1 ++ l2) =
      (Sequence.hasPlaceHolder l1 || Sequence.hasPlaceHolder l2)
  | [], l2 => by simp [Sequence.hasPlaceHolder]
  | a :: l1, l2 => by
    simp [Sequence.hasPlaceHolder, Sequence.hasPlaceHolder_append l1 l2, Bool.or_assoc]

theorem Sequence.hasPlaceHolder_iff {l : List Acceptor} :
    Sequence.hasPlaceHolder l = false ↔ ∀ a ∈ l, a.hasPlaceHolder = false := by
  induction l with
  | nil => simp [Sequence.hasPlaceHolder]
  | cons a l ih => simp [Sequence.hasPlaceHolder, ih]

theorem parseRange.members_noPlaceHolder : ∀ (s : Str) (choices r : List Acceptor),
    parseRange.members s choices = .ok r → Sequence.hasPlaceHolder choices = false →
      Sequence.hasPlaceHolder r = false
  | [], choices, r, h, hc => by
    simp only [parseRange.members, Outcome.ok.injEq] at h
    subst h
    exact hc
  | [x], choices, r, h, hc => by
    simp only [parseRange.members, Outcome.ok.injEq] at h
    subst h
    simp [Sequence.hasPlaceHolder_append, hc, Sequence.hasPlaceHolder, Acceptor.hasPlaceHolder]
  | [x, y], choices, r, h, hc => by
    by_cases hy : y = 45
    · simp [parseRange.members, hy] at h
    · simp only [parseRange.members, if_neg hy, Outcome.ok.injEq] at h
      subst h
      simp [Sequence.hasPlaceHolder_append, hc, Sequence.hasPlaceHolder,
        Acceptor.hasPlaceHolder]
  | x :: y :: z :: rest2, choices, r, h, hc => by
    by_cases hy : y = 45
    · simp only [parseRange.members, if_pos hy] at h
      exact parseRange.members_noPlaceHolder rest2 _ r h (by
        simp [Sequence.hasPlaceHolder_append, hc, Sequence.hasPlaceHolder,
          Acceptor.hasPlaceHolder])
    · simp only [parseRange.members, if_neg hy] at h
      exact parseRange.members_noPlaceHolder (y :: z :: rest2) _ r h (by
        simp [Sequence.hasPlaceHolder_append, hc, Sequence.hasPlaceHolder,
          Acceptor.hasPlaceHolder])

theorem foldl_Pipe_noPlaceHolder : ∀ (rest : List Acceptor) (lhs : Acceptor),
    lhs.hasPlaceHolder = false → Sequence.hasPlaceHolder rest = false →
      (rest.foldl Acceptor.Pipe lhs).hasPlaceHolder = false
  | [], lhs, h, _ => h
  | a :: rest, lhs, h, hr => by
    simp only [Sequence.hasPlaceHolder, Bool.or_eq_false_iff] at hr
    exact foldl_Pipe_noPlaceHolder rest (.Pipe lhs a)
      (by simp [Acceptor.hasPlaceHolder, h, hr.1]) hr.2

theorem parseRange_noPlaceHolder {s : Str} {r : Acceptor × Int} (h : parseRange s = .ok r) :
    r.1.hasPlaceHolder = false := by
  cases s with
  | nil => simp [parseRange] at h
  | cons c0 tl =>
    simp only [parseRange] at h
    obtain ⟨e, -, h⟩ := Outcome.bind_eq_ok h
    split_ifs at h with he
    · cases h
      rfl
    · revert h
      split
      · intro h
        obtain ⟨ch, hch, h⟩ := Outcome.bind_eq_ok h
        have hnp := parseRange.members_noPlaceHolder _ _ _ hch (by
          split_ifs <;> simp [Sequence.hasPlaceHolder, Acceptor.hasPlaceHolder])
        revert h
        split
        · simp
        · intro h
          cases h
          simp only [Sequence.hasPlaceHolder, Bool.or_eq_false_iff] at hnp
          exact foldl_Pipe_noPlaceHolder _ _ hnp.1 hnp.2
      · simp

theorem Parse.wrapLast_noPlaceHolder {wrap : Acceptor → Acceptor}
    (hw : ∀ x, x.hasPlaceHolder = false → (wrap x).hasPlaceHolder = false)
    {out out2 : List Acceptor} {rest rest2 : Str}
    (h : Parse.wrapLast wrap out rest = .next out2 rest2)
    (ho : Sequence.hasPlaceHolder out = false) : Sequence.hasPlaceHolder out2 = false := by
  unfold Parse.wrapLast at h
  cases hl : out.getLast? with
  | none => simp [hl] at h
  | some x =>
    simp only [hl, Parse.Step.next.injEq] at h
    obtain ⟨rfl, -⟩ := h
    rw [Sequence.hasPlaceHolder_iff] at ho ⊢
    intro a ha
    rcases List.mem_append.1 ha with h1 | h1
    · exact ho a (List.dropLast_subset _ h1)
    · simp only [List.mem_singleton] at h1
      subst h1
      exact hw x (ho x (List.mem_of_getLast?_eq_some hl))


theorem Parse.step_noPlaceHolder {out out2 : List Acceptor} {ch : UInt8} {rest rest2 : Str}
    (h : Parse.step out ch rest = .next out2 rest2)
    (ho : Sequence.hasPlaceHolder out = false) : Sequence.hasPlaceHolder out2 = false := by
  have happ : ∀ x : Acceptor, x.hasPlaceHolder = false →
      Sequence.hasPlaceHolder (out ++ [x]) = false := by
    intro x hx
    simp [Sequence.hasPlaceHolder_append, ho, Sequence.hasPlaceHolder, hx]
  by_cases h1 : ch = 46
  · simp only [Parse.step, if_pos h1, Parse.Step.next.injEq] at h
    obtain ⟨rfl, -⟩ := h
    exact happ _ rfl
  by_cases h2 : ch = 42
  · simp only [Parse.step, h1, ↓reduceIte] at h
    simp only [if_pos h2] at h
    exact Parse.wrapLast_noPlaceHolder (fun x hx => by simpa [Acceptor.hasPlaceHolder]) h ho
  by_cases h3 : ch = 43
  · simp only [Parse.step, h1, h2, ↓reduceIte] at h
    simp only [if_pos h3] at h
    exact Parse.wrapLast_noPlaceHolder (fun x hx => by simpa [Acceptor.hasPlaceHolder]) h ho
  by_cases h4 : ch = 63
  · simp only [Parse.step, h1, h2, h3, ↓reduceIte] at h
    simp only [if_pos h4] at h
    exact Parse.wrapLast_noPlaceHolder (fun x hx => by simpa [Acceptor.hasPlaceHolder]) h ho
  by_cases h5 : ch = 124
  · simp only [Parse.step, h1, h2, h3, h4, ↓reduceIte] at h
    simp only [if_pos h5] at h
    cases h
  by_cases h6 : ch = 123
  · simp only [Parse.step, h1, h2, h3, h4, h5, ↓reduceIte] at h
    simp only [if_pos h6] at h
    cases hl : out.getLast? with
    | none => simp [hl] at h
    | some x =>
      simp only [hl] at h
      cases hs : fmt.Sscanf rest with
      | ok p =>
        obtain ⟨lo, hi⟩ := p
        simp only [hs] at h
        cases hb : Parse.skipBrace rest with
        | none => simp [hb] at h
        | some r =>
          have hw : Parse.wrapLast (fun y => .Count y lo hi) out r = .next out2 rest2 := by
            simp only [hb] at h
            simp only [Parse.wrapLast, hl]
            exact h
          exact Parse.wrapLast_noPlaceHolder
            (fun x hx => by simpa [Acceptor.hasPlaceHolder]) hw ho
      | error m => simp [hs] at h
      | panicked => simp [hs] at h
      | diverge => simp [hs] at h
  by_cases h7 : ch = 91
  · simp only [Parse.step, h1, h2, h3, h4, h5, h6, ↓reduceIte] at h
    simp only [if_pos h7] at h
    cases hp : parseRange rest with
    | ok p =>
      obtain ⟨m, idx⟩ := p
      have hm := parseRange_noPlaceHolder hp
      simp only [hp] at h
      split_ifs at h
      simp only [Parse.Step.next.injEq] at h
      obtain ⟨rfl, -⟩ := h
      exact happ _ hm
    | error m => simp [hp] at h
    | panicked => simp [hp] at h
    | diverge => simp [hp] at h
  by_cases h8 : ch = 92
  · simp only [Parse.step, h1, h2, h3, h4, h5, h6, h7, ↓reduceIte] at h
    simp only [if_pos h8] at h
    cases rest with
    | nil => simp at h
    | cons c r =>
      simp only [Parse.Step.next.injEq] at h
      obtain ⟨rfl, -⟩ := h
      exact happ _ rfl
  simp only [Parse.step, h1, h2, h3, h4, h5, h6, h7, h8, ↓reduceIte, Parse.Step.next.injEq] at h
  obtain ⟨rfl, -⟩ := h
  exact happ _ rfl

theorem Parse.loop_noPlaceHolder : ∀ (fuel : Nat) (out : List Acceptor) (input : Str)
    (r : List Acceptor), Parse.loop fuel out input = .ok r →
      Sequence.hasPlaceHolder out = false → Sequence.hasPlaceHolder r = false
  | fuel, out, [], r, h, ho => by
    simp only [Parse.loop_nil, Outcome.ok.injEq] at h
    subst h
    exact ho
  | 0, out, _ :: _, r, h, _ => by simp [Parse.loop] at h
  | fuel + 1, out, ch :: rest, r, h, ho => by
    rw [Parse.loop_cons] at h
    cases hs : Parse.step out ch rest with
    | next out2 rest2 =>
      rw [hs] at h
      exact Parse.loop_noPlaceHolder fuel out2 rest2 r h (Parse.step_noPlaceHolder hs ho)
    | alt left rest2 =>
      obtain ⟨-, rfl, rfl⟩ := Parse.step_alt hs
      rw [hs] at h
      simp only at h
      cases hr : Parse.loop fuel [] rest2 with
      | ok right =>
        have := Parse.loop_noPlaceHolder fuel [] rest2 right hr rfl
        simp only [hr, Outcome.ok.injEq] at h
        subst h
        simp [Sequence.hasPlaceHolder, Acceptor.hasPlaceHolder, ho, this]
      | error m =>
        simp only [hr, Outcome.ok.injEq] at h
        subst h
        simp [Sequence.hasPlaceHolder, Acceptor.hasPlaceHolder, ho]
      | panicked => simp [hr] at h
      | diverge => simp [hr] at h
    | fail msg => rw [hs] at h; cases h
    | crash => rw [hs] at h; cases h

theorem Parse_noPlaceHolder {p : Str} {r : Regexp} (h : Parse p = .ok r) :
    Sequence.hasPlaceHolder r = false :=
  Parse.loop_noPlaceHolder p.length [] p r h rfl

/-! ### Matching is anchored at the start only -/

theorem Reach_append {R : Str → Str → Prop} (t : Str)
    (hR : ∀ s u, R s u → R (s ++ t) (u ++ t)) :
    ∀ (k : Nat) (s u : Str), Reach R k s u → Reach R k (s ++ t) (u ++ t)
  | 0, s, u, h => by
    simp only [Reach] at h ⊢
    rw [h]
  | k + 1, s, u, h => by
    obtain ⟨x, h1, h2⟩ := h
    exact ⟨x ++ t, Reach_append t hR k s x h1, hR _ _ h2⟩

theorem reach_append {R : Str → Str → Prop} (t : Str)
    (hR : ∀ s u, R s u → R (s ++ t) (u ++ t)) {s u : Str}
    (h : Relation.ReflTransGen R s u) : Relation.ReflTransGen R (s ++ t) (u ++ t) := by
  induction h with
  | refl => exact Relation.ReflTransGen.refl
  | tail _ hbc ih => exact Relation.ReflTransGen.tail ih (hR _ _ hbc)

mutual
theorem Acceptor.Den_append (t : Str) : ∀ (a : Acceptor) (s u : Str),
    a.Den s u → a.Den (s ++ t) (u ++ t)
  | .Dot, s, u, h => by
    simp only [Acceptor.Den] at h ⊢
    obtain ⟨c, rfl, hc⟩ := h
    exact ⟨c, rfl, hc⟩
  | .Single c, s, u, h => by
    simp only [Acceptor.Den] at h ⊢
    subst h
    rfl
  | .Range lo hi, s, u, h => by
    simp only [Acceptor.Den] at h ⊢
    obtain ⟨c, rfl, hc⟩ := h
    exact ⟨c, rfl, hc⟩
  | .Maybe mini, s, u, h => by
    simp only [Acceptor.Den] at h ⊢
    rcases h with rfl | h
    · exact Or.inl rfl
    · exact Or.inr (Acceptor.Den_append t mini s u h)
  | .Star mini, s, u, h => by
    simp only [Acceptor.Den] at h ⊢
    exact reach_append t (fun x y hxy => Acceptor.Den_append t mini x y hxy) h
  | .Count mini min max, s, u, h => by
    simp only [Acceptor.Den] at h ⊢
    obtain ⟨k, h1, h2, hk⟩ := h
    exact ⟨k, h1, h2, Reach_append t (fun x y hxy => Acceptor.Den_append t mini x y hxy) k s u hk⟩
  | .Plus mini, s, u, h => by
    simp only [Acceptor.Den] at h ⊢
    obtain ⟨x, h1, h2⟩ := h
    exact ⟨x ++ t, Acceptor.Den_append t mini s x h1,
      reach_append t (fun x y hxy => Acceptor.Den_append t mini x y hxy) h2⟩
  | .Sequence l, s, u, h => by
    simp only [Acceptor.Den] at h ⊢
    exact Sequence.Den_seq_append t l s u h
  | .Pipe left right, s, u, h => by
    simp only [Acceptor.Den] at h ⊢
    rcases h with h | h
    · exact Or.inl (Acceptor.Den_append t left s u h)
    · exact Or.inr (Acceptor.Den_append t right s u h)
  | .PipePlaceHolder, s, u, h => by
    simp only [Acceptor.Den] at h
theorem Sequence.Den_seq_append (t : Str) : ∀ (l : List Acceptor) (s u : Str),
    Sequence.Den l s u → Sequence.Den l (s ++ t) (u ++ t)
  | [], s, u, h => by
    simp only [Sequence.Den] at h ⊢
    rw [h]
  | a :: as, s, u, h => by
    simp only [Sequence.Den] at h ⊢
    obtain ⟨x, h1, h2⟩ := h
    exact ⟨x ++ t, Acceptor.Den_append t a s x h1, Sequence.Den_seq_append t as x u h2⟩
end

/-- `Regexp.Match` on a tree without placeholder whose `Count` bounds are below the largest
`int`, with fuel for its input: it returns, and the answer is whether the sequence matches
some prefix of the input. -/
theorem Regexp.Match_spec (fuel : Nat) (r : Regexp) (hr : Sequence.hasPlaceHolder r = false)
    (hb : Sequence.countsBelowMax r = true) (input : Str) (hfuel : input.length < fuel) :
    ∃ b, Regexp.Match fuel r input = .ok b ∧ (b = true ↔ ∃ u, Sequence.Den r input u) := by
  obtain ⟨set, hset, hmem⟩ := Sequence.Accept_seq_spec fuel r hr hb input hfuel
  refine ⟨set.length != 0, by simp only [Regexp.Match, hset]; rfl, ?_⟩
  cases set with
  | nil =>
    simp only [List.length_nil, bne_self_eq_false, Bool.false_eq_true, false_iff, not_exists]
    intro u hu
    have := (hmem u).2 hu
    simp at this
  | cons x rest =>
    simp only [List.length_cons, bne_iff_ne, ne_eq, Nat.add_one_ne_zero, not_false_eq_true,
      true_iff]
    exact ⟨x, (hmem x).1 (List.mem_cons_self _ _)⟩


theorem parseRange.scan_panicked : ∀ (t : Str) (e0 : Nat), (93 : UInt8) ∉ t →
    parseRange.scan t e0 = .panicked
  | [], _, _ => rfl
  | c :: rest, e0, h => by
    have hc : c ≠ 93 := fun hc => h (by simp [hc])
    have hr : (93 : UInt8) ∉ rest := fun hr => h (List.mem_cons_of_mem _ hr)
    simp only [parseRange.scan, if_neg hc]
    exact parseRange.scan_panicked rest (e0 + 1) hr

theorem parseRange_panicked (b : Str) (h : (93 : UInt8) ∉ b) : parseRange b = .panicked := by
  cases b with
  | nil => rfl
  | cons c0 tl =>
    have hc : c0 ≠ 93 := fun hc => h (by simp [hc])
    simp only [parseRange, if_neg hc, List.drop_zero, parseRange.scan_panicked _ 0 h]
    rfl

theorem Sequence.Accept_cons_ok {fuel : Nat} {a : Acceptor} {as : List Acceptor} {cs : Str}
    {set : Set} (h : Sequence.Accept fuel (a :: as) cs = .ok set) :
    ∃ next, a.Accept fuel cs = .ok next ∧
      unionOver (Sequence.Accept fuel as) next (New []) = .ok set := by
  simp only [Sequence.Accept] at h
  exact Outcome.bind_eq_ok h

/-! ## The claims -/

/-- C1: for a pattern `L` without the byte `|` that parses to `l` and a pattern `R` that
parses to `r`, `Parse` of `L`, `|`, `R` returns the one-element list
`[Pipe{Sequence(l), Sequence(r)}]`. -/
theorem Parse_pipe (L R : Str) (l r : Regexp) (hL : (124 : UInt8) ∉ L)
    (h1 : Parse L = .ok l) (h2 : Parse R = .ok r) :
    Parse (L ++ 124 :: R) = .ok [.Pipe (.Sequence l) (.Sequence r)] := by
  rw [Parse_alt L R l hL h1, h2]

/-- C1 at the pattern `45|4*` of `TestParse`. -/
theorem Parse_pipe_witness :
    Parse [52, 53, 124, 52, 42] =
      .ok [.Pipe (.Sequence [.Single 52, .Single 53]) (.Sequence [.Star (.Single 52)])] :=
  Parse_pipe [52, 53] [52, 42] [.Single 52, .Single 53] [.Star (.Single 52)]
    (by decide) rfl rfl

/-- C2 (the code does otherwise): when the right-hand side `R` of an alternation does not
parse, `Parse` still succeeds; the error of the recursive call is dropped and the right
branch is the empty sequence. -/
theorem Parse_pipe_error_dropped (L R : Str) (l : Regexp) (msg : String)
    (hL : (124 : UInt8) ∉ L) (h1 : Parse L = .ok l) (h2 : Parse R = .error msg) :
    Parse (L ++ 124 :: R) = .ok [.Pipe (.Sequence l) (.Sequence [])] := by
  rw [Parse_alt L R l hL h1, h2]

/-- C2 at the pattern `a|*`: `*` alone is an error, `a|*` parses. -/
theorem Parse_pipe_error_dropped_witness :
    Parse [42] = .error "syntax error" ∧
      Parse [97, 124, 42] = .ok [.Pipe (.Sequence [.Single 97]) (.Sequence [])] :=
  ⟨rfl, Parse_pipe_error_dropped [97] [42] [.Single 97] "syntax error" (by decide) rfl rfl⟩

/-- C3 (the code does otherwise): a `[` whose class has no closing `]` makes `Parse` panic
with an index out of range in `parseRange`; no error value is returned. -/
theorem Parse_unterminated_class (b : Str) (h : (93 : UInt8) ∉ b) :
    Parse (91 :: b) = .panicked := by
  simp only [Parse, List.length_cons, Parse.loop_cons]
  have hs : Parse.step [] 91 b = .crash := by
    simp [Parse.step, parseRange_panicked b h]
  rw [hs]

/-- C3 at the patterns `[` and `[abc`. -/
theorem Parse_unterminated_class_witness :
    Parse [91] = .panicked ∧ Parse [91, 97, 98, 99] = .panicked :=
  ⟨Parse_unterminated_class [] (by decide), Parse_unterminated_class [97, 98, 99] (by decide)⟩

/-- C4 (amended): matching is prefix-based on trees whose `Count` bounds are below the
largest `int`.  For a pattern that `Parse` accepts with such a result `r`, if `r.Match(s)`
is true then `r.Match(s + t)` is true; and for every node `a` without placeholder and with
such bounds, whenever `u` is in `a.Accept(s)` then `u + t` is in `a.Accept(s + t)`.  The
fuel is any amount above the length of the input. -/
theorem Match_extends (p : Str) (r : Regexp) (hp : Parse p = .ok r)
    (hb : Sequence.countsBelowMax r = true) (s t : Str)
    (fuel fuel2 : Nat) (hf : s.length < fuel) (hf2 : (s ++ t).length < fuel2) :
    (Regexp.Match fuel r s = .ok true → Regexp.Match fuel2 r (s ++ t) = .ok true) ∧
      ∀ a : Acceptor, a.hasPlaceHolder = false → a.countsBelowMax = true →
        ∀ (set : Set) (u : Str), a.Accept fuel s = .ok set → u ∈ set →
          ∃ set2, a.Accept fuel2 (s ++ t) = .ok set2 ∧ u ++ t ∈ set2 := by
  have hr := Parse_noPlaceHolder hp
  constructor
  · intro h
    obtain ⟨b, hb1, hiff⟩ := Regexp.Match_spec fuel r hr hb s hf
    obtain ⟨b2, hb2, hiff2⟩ := Regexp.Match_spec fuel2 r hr hb (s ++ t) hf2
    rw [hb1] at h
    cases h
    obtain ⟨u, hu⟩ := hiff.1 rfl
    rw [hb2, hiff2.2 ⟨u ++ t, Sequence.Den_seq_append t r s u hu⟩]
  · intro a ha hab set u hset hu
    obtain ⟨set1, h1, m1⟩ := Acceptor.Accept_spec fuel a ha hab s hf
    obtain ⟨set2, h2, m2⟩ := Acceptor.Accept_spec fuel2 a ha hab (s ++ t) hf2
    rw [hset] at h1
    cases h1
    exact ⟨set2, h2, (m2 _).2 (Acceptor.Den_append t a s u ((m1 u).1 hu))⟩

/-- C4 at the pattern `a{1,2}`, the input `a` and the extension `b`. -/
theorem Match_extends_witness :
    Parse [97, 123, 49, 44, 50, 125] = .ok [.Count (.Single 97) 1 2] ∧
      Regexp.Match 2 [.Count (.Single 97) 1 2] [97] = .ok true ∧
      Regexp.Match 3 [.Count (.Single 97) 1 2] [97, 98] = .ok true :=
  ⟨rfl, rfl,
    (Match_extends [97, 123, 49, 44, 50, 125] [.Count (.Single 97) 1 2] rfl rfl [97] [98] 2 3
      (by decide) (by decide)).1 rfl⟩

/-- C4, as the spec states it, fails at the pattern `b*|xa{0,9223372036854775807}`, the input
`s` empty and the extension `t = x`: the pattern parses, `Match` of the empty input is
true (the left branch matches, the right branch stops at `x`), and `Match` of `x` returns
nothing, whatever the fuel: the right branch reaches `Count.Accept` with `max` the largest
`int`, whose second loop never ends. -/
theorem Match_extends_counterexample :
    Parse [98, 42, 124, 120, 97, 123, 48, 44, 57, 50, 50, 51, 51, 55, 50, 48, 51, 54, 56, 53,
        52, 55, 55, 53, 56, 48, 55, 125] =
      .ok [.Pipe (.Sequence [.Star (.Single 98)])
        (.Sequence [.Single 120, .Count (.Single 97) 0 9223372036854775807])] ∧
      Regexp.Match 1 [.Pipe (.Sequence [.Star (.Single 98)])
        (.Sequence [.Single 120, .Count (.Single 97) 0 9223372036854775807])] [] = .ok true ∧
      ¬ ∃ (fuel : Nat) (b : Bool), Regexp.Match fuel [.Pipe (.Sequence [.Star (.Single 98)])
        (.Sequence [.Single 120, .Count (.Single 97) 0 9223372036854775807])] ([] ++ [120]) =
          .ok b := by
  refine ⟨rfl, rfl, ?_⟩
  rintro ⟨fuel, b, h⟩
  obtain ⟨set, h1, -⟩ := Outcome.bind_eq_ok h
  obtain ⟨next, h2, -⟩ := Sequence.Accept_cons_ok h1
  simp only [Acceptor.Accept] at h2
  obtain ⟨l, -, h3⟩ := Outcome.bind_eq_ok h2
  obtain ⟨r, h4, -⟩ := Outcome.bind_eq_ok h3
  obtain ⟨n1, h5, h6⟩ := Sequence.Accept_cons_ok h4
  have h7 : n1 = [[]] := by
    have : (Acceptor.Single 120).Accept fuel ([] ++ [120]) = .ok [[]] := rfl
    rw [this] at h5
    cases h5
    rfl
  subst h7
  obtain ⟨r2, h8⟩ := (unionOver_ok _ _ _ _ h6).1 [] (List.mem_singleton.2 rfl)
  obtain ⟨n2, h9, -⟩ := Sequence.Accept_cons_ok h8
  simp only [Acceptor.Accept] at h9
  exact Count.run_diverge _ 0 (by decide) [] n2 h9

/-- C5 (amended): for a child `c` built from the nine variants whose `Count` bounds are
below the largest `int`, and an input `s` shorter than the largest `int`,
`Star{c}.Accept(s)` returns, its result holds `s`, `Count{c,k,k}.Accept(s)` returns for
every `k` with `0 <= k` below the largest `int`, and the result of `Star` holds exactly the
strings that `Count{c,k,k}.Accept(s)` holds for some such `k`. -/
theorem Star_Accept_closure (c : Acceptor) (hc : c.hasPlaceHolder = false)
    (hb : c.countsBelowMax = true) (s : Str) (hs : (s.length : Int) < maxInt)
    (fuel : Nat) (hf : s.length < fuel) :
    ∃ set, (Acceptor.Star c).Accept fuel s = .ok set ∧ s ∈ set ∧
      (∀ k : Nat, (k : Int) < maxInt →
        ∃ setk, (Acceptor.Count c (k : Int) (k : Int)).Accept fuel s = .ok setk) ∧
      ∀ u, u ∈ set ↔
        ∃ k : Nat, (k : Int) < maxInt ∧
          ∃ setk, (Acceptor.Count c (k : Int) (k : Int)).Accept fuel s = .ok setk ∧
            u ∈ setk := by
  have hs1 : (Acceptor.Star c).hasPlaceHolder = false := by simpa [Acceptor.hasPlaceHolder]
  have hs2 : (Acceptor.Star c).countsBelowMax = true := by simpa [Acceptor.countsBelowMax]
  obtain ⟨set, hset, hmem⟩ := Acceptor.Accept_spec fuel (.Star c) hs1 hs2 s hf
  have hcount : ∀ k : Nat, (k : Int) < maxInt → ∃ setk,
      (Acceptor.Count c (k : Int) (k : Int)).Accept fuel s = .ok setk ∧
        ∀ u, u ∈ setk ↔ Reach (fun x y => c.Den x y) k s u := by
    intro k hk
    have hk1 : (Acceptor.Count c (k : Int) (k : Int)).hasPlaceHolder = false := by
      simpa [Acceptor.hasPlaceHolder]
    have hk2 : (Acceptor.Count c (k : Int) (k : Int)).countsBelowMax = true := by
      rw [Acceptor.countsBelowMax_Count]
      simp only [minInt, maxInt] at hk ⊢
      exact ⟨by omega, by omega, by omega, hk, hb⟩
    obtain ⟨setk, h1, h2⟩ := Acceptor.Accept_spec fuel (.Count c k k) hk1 hk2 s hf
    refine ⟨setk, h1, fun u => ?_⟩
    rw [h2]
    simp only [Acceptor.Den]
    constructor
    · rintro ⟨j, hj1, hj2, hr⟩
      have : j = k := by omega
      subst this
      exact hr
    · intro hr
      exact ⟨k, le_refl _, le_refl _, hr⟩
  refine ⟨set, hset, (hmem s).2 (by simp only [Acceptor.Den]; exact Relation.ReflTransGen.refl),
    fun k hk => ?_, fun u => ?_⟩
  · obtain ⟨setk, h1, -⟩ := hcount k hk
    exact ⟨setk, h1⟩
  · rw [hmem]
    simp only [Acceptor.Den]
    constructor
    · intro h
      obtain ⟨k, hk, hr⟩ := Reach_short (fun x y hxy => Acceptor.Den_suffix c x y hxy) h
      have hk2 : (k : Int) < maxInt := by omega
      obtain ⟨setk, h1, h2⟩ := hcount k hk2
      exact ⟨k, hk2, setk, h1, (h2 u).2 hr⟩
    · rintro ⟨k, hk, setk, h1, hu⟩
      obtain ⟨setk2, h3, h4⟩ := hcount k hk
      rw [h1] at h3
      cases h3
      exact reach_iff_Reach.2 ⟨k, (h4 u).1 hu⟩

/-- C5 at the child `Single 'a'` and the input `aa`. -/
theorem Star_Accept_closure_witness :
    ∃ set, (Acceptor.Star (.Single 97)).Accept 3 [97, 97] = .ok set ∧ [97, 97] ∈ set ∧
      (∀ k : Nat, (k : Int) < maxInt →
        ∃ setk, (Acceptor.Count (.Single 97) (k : Int) (k : Int)).Accept 3 [97, 97] =
          .ok setk) ∧
      ∀ u, u ∈ set ↔
        ∃ k : Nat, (k : Int) < maxInt ∧
          ∃ setk, (Acceptor.Count (.Single 97) (k : Int) (k : Int)).Accept 3 [97, 97] =
            .ok setk ∧ u ∈ setk :=
  Star_Accept_closure (.Single 97) rfl rfl [97, 97] (by decide) 3 (by decide)

/-- C5, as the spec states it, fails at the child `Count{Single 'a', 0, 9223372036854775807}`,
a node built from the nine variants, and the empty input: `Star.Accept` returns no set,
whatever the fuel, because the first call of the child never returns; and
`Count{Single 'a', k, k}.Accept` returns no set at `k = 9223372036854775807`, one of the
`k >= 0` of the union. -/
theorem Star_Accept_closure_counterexample :
    (¬ ∃ (fuel : Nat) (set : Set),
        (Acceptor.Star (.Count (.Single 97) 0 9223372036854775807)).Accept fuel [] = .ok set) ∧
      ¬ ∃ (fuel : Nat) (set : Set),
        (Acceptor.Count (.Single 97) 9223372036854775807 9223372036854775807).Accept fuel [] =
          .ok set := by
  constructor
  · rintro ⟨fuel, set, h⟩
    cases fuel with
    | zero => simp [Acceptor.Accept, Star.run, Star.loop] at h
    | succ n =>
      simp only [Acceptor.Accept, Star.run, Star.loop] at h
      obtain ⟨next, h1, -⟩ := Outcome.bind_eq_ok h
      exact Count.run_diverge _ 0 (by decide) [] next h1
  · rintro ⟨fuel, set, h⟩
    simp only [Acceptor.Accept] at h
    exact Count.run_diverge _ 9223372036854775807 (by decide) [] set h

/-- C6: for every node `a` and input `s`, every member of the set that `a.Accept(s)`
returns is a suffix of `s`; and for a node built from the nine variants whose `Count`
bounds are below the largest `int` the call returns. -/
theorem Accept_suffix (a : Acceptor) (s : Str) (fuel : Nat) :
    (∀ set, a.Accept fuel s = .ok set → ∀ m ∈ set, ∃ u, s = u ++ m) ∧
      (a.hasPlaceHolder = false → a.countsBelowMax = true → s.length < fuel →
        ∃ set, a.Accept fuel s = .ok set) := by
  refine ⟨fun set hset m hm => ?_, fun ha hb hf => ?_⟩
  · obtain ⟨u, hu⟩ := Acceptor.Accept_members fuel a s set hset m hm
    exact ⟨u, hu.symm⟩
  · obtain ⟨set, hset, -⟩ := Acceptor.Accept_spec fuel a ha hb s hf
    exact ⟨set, hset⟩

/-- C6 at the node `Plus{Range 'a'..'f'}` of `TestAcceptor` and the input `abc`. -/
theorem Accept_suffix_witness :
    (Acceptor.Plus (.Range 97 102)).Accept 4 [97, 98, 99] = .ok [[98, 99], [99], []] ∧
      (∀ m ∈ ([[98, 99], [99], []] : Set), ∃ u, [97, 98, 99] = u ++ m) ∧
      ∃ set, (Acceptor.Plus (.Range 97 102)).Accept 4 [97, 98, 99] = .ok set :=
  ⟨rfl, (Accept_suffix (.Plus (.Range 97 102)) [97, 98, 99] 4).1 _ rfl,
    (Accept_suffix (.Plus (.Range 97 102)) [97, 98, 99] 4).2 rfl rfl (by decide)⟩

/-- C7 (amended): for a pattern that `Parse` accepts with result `r`, the tree `r` holds no
`PipePlaceHolder`; when the `Count` bounds of `r` are below the largest `int`,
`r.Match(s)` returns a boolean for every input `s`, with no panic; and every run of the
work-queue loop of `Star.Accept` on an input `x`, over a child with such bounds, ends
within `len(x) + 1` evaluations of the child (the fuel counts them). -/
theorem Match_terminates (p : Str) (r : Regexp) (hp : Parse p = .ok r) :
    Sequence.hasPlaceHolder r = false ∧
      (Sequence.countsBelowMax r = true →
        ∀ (s : Str) (fuel : Nat), s.length < fuel → ∃ b, Regexp.Match fuel r s = .ok b) ∧
      ∀ (c : Acceptor), c.hasPlaceHolder = false → c.countsBelowMax = true → ∀ x : Str,
        ∃ set, Star.loop (c.Accept (x.length + 1)) (x.length + 1) (New [x]) [x] = .ok set := by
  have hr := Parse_noPlaceHolder hp
  refine ⟨hr, fun hb s fuel hf => ?_, fun c hc hb x => ?_⟩
  · obtain ⟨b, hb1, -⟩ := Regexp.Match_spec fuel r hr hb s hf
    exact ⟨b, hb1⟩
  · obtain ⟨set, hset, -⟩ := Star.run_closure (c.Accept (x.length + 1)) (fun a b => c.Den a b) x
      (x.length + 1) (fun a b hab => Acceptor.Den_suffix c a b hab)
      (fun y hy => Acceptor.Accept_spec (x.length + 1) c hc hb y
        (Nat.lt_succ_of_le hy.length_le)) (Nat.lt_succ_self _)
    exact ⟨set, hset⟩

/-- C7 at the pattern `b{8,100}` of `TestParse`, and the loop of `Star` over the child
`Count{Single 'b', 8, 100}`. -/
theorem Match_terminates_witness :
    Sequence.hasPlaceHolder [Acceptor.Count (.Single 98) 8 100] = false ∧
      (∀ (s : Str) (fuel : Nat), s.length < fuel →
        ∃ b, Regexp.Match fuel [Acceptor.Count (.Single 98) 8 100] s = .ok b) ∧
      ∀ x : Str, ∃ set,
        Star.loop ((Acceptor.Count (.Single 98) 8 100).Accept (x.length + 1)) (x.length + 1)
          (New [x]) [x] = .ok set :=
  ⟨(Match_terminates [98, 123, 56, 44, 49, 48, 48, 125] [.Count (.Single 98) 8 100] rfl).1,
    (Match_terminates [98, 123, 56, 44, 49, 48, 48, 125] [.Count (.Single 98) 8 100] rfl).2.1
      rfl,
    (Match_terminates [98, 123, 56, 44, 49, 48, 48, 125] [.Count (.Single 98) 8 100] rfl).2.2
      (.Count (.Single 98) 8 100) rfl rfl⟩

/-- C7, as the spec states it, fails at the pattern `a{0,9223372036854775807}`: `Parse`
accepts it, and `Match` of the empty input returns nothing, whatever the fuel, because the
second loop of `Count.Accept` never ends when `max` is the largest `int`: from the counter
`0` it is still running after any number `k` of rounds. -/
theorem Match_terminates_counterexample :
    Parse [97, 123, 48, 44, 57, 50, 50, 51, 51, 55, 50, 48, 51, 54, 56, 53, 52, 55, 55, 53,
        56, 48, 55, 125] = .ok [.Count (.Single 97) 0 9223372036854775807] ∧
      (∀ (depths : Int → Set) (k : Nat) (out : Set),
        Count.collect depths 9223372036854775807 k 0 out = .diverge) ∧
      ¬ ∃ (fuel : Nat) (b : Bool),
        Regexp.Match fuel [.Count (.Single 97) 0 9223372036854775807] [] = .ok b := by
  refine ⟨rfl, fun depths k out => Count.collect_diverge depths k 0 out (by decide), ?_⟩
  rintro ⟨fuel, b, h⟩
  obtain ⟨set, h1, -⟩ := Outcome.bind_eq_ok h
  simp only [Sequence.Accept] at h1
  obtain ⟨next, h2, -⟩ := Outcome.bind_eq_ok h1
  simp only [Acceptor.Accept] at h2
  exact Count.run_diverge _ 0 (by decide) [] next h2

/-- C8 (amended): for a child `c` built from the nine variants whose `Count` bounds are
below the largest `int`, and all values `m`, `n` of an `int` with `n` below the largest
`int`, `Count{c,m,n}.Accept(s)` returns, `Count{c,k,k}.Accept(s)` returns for every
integer `k` with `m <= k <= n`, and the result holds exactly the strings that
`Count{c,k,k}.Accept(s)` holds for some such `k`. -/
theorem Count_Accept_union (c : Acceptor) (hc : c.hasPlaceHolder = false)
    (hb : c.countsBelowMax = true) (m n : Int) (hm1 : minInt ≤ m) (hm2 : m ≤ maxInt)
    (hn1 : minInt ≤ n) (hn2 : n < maxInt) (s : Str) (fuel : Nat) (hf : s.length < fuel) :
    ∃ set, (Acceptor.Count c m n).Accept fuel s = .ok set ∧
      (∀ k : Int, m ≤ k → k ≤ n → ∃ setk, (Acceptor.Count c k k).Accept fuel s = .ok setk) ∧
      ∀ u, u ∈ set ↔
        ∃ k : Int, m ≤ k ∧ k ≤ n ∧
          ∃ setk, (Acceptor.Count c k k).Accept fuel s = .ok setk ∧ u ∈ setk := by
  have hcnt : ∀ a b : Int, (Acceptor.Count c a b).hasPlaceHolder = false := by
    intro a b
    simpa [Acceptor.hasPlaceHolder]
  have hcb : ∀ k : Int, m ≤ k → k ≤ n → (Acceptor.Count c k k).countsBelowMax = true := by
    intro k h1 h2
    rw [Acceptor.countsBelowMax_Count]
    exact ⟨by omega, by omega, by omega, by omega, hb⟩
  have hmn : (Acceptor.Count c m n).countsBelowMax = true := by
    rw [Acceptor.countsBelowMax_Count]
    exact ⟨hm1, hm2, hn1, hn2, hb⟩
  obtain ⟨set, hset, hmem⟩ := Acceptor.Accept_spec fuel (.Count c m n) (hcnt m n) hmn s hf
  refine ⟨set, hset, fun k h1 h2 => ?_, fun u => ?_⟩
  · obtain ⟨setk, h3, -⟩ := Acceptor.Accept_spec fuel (.Count c k k) (hcnt k k) (hcb k h1 h2) s hf
    exact ⟨setk, h3⟩
  · rw [hmem]
    simp only [Acceptor.Den]
    constructor
    · rintro ⟨j, h1, h2, hr⟩
      obtain ⟨setk, h3, h4⟩ := Acceptor.Accept_spec fuel (.Count c j j) (hcnt j j)
        (hcb j h1 h2) s hf
      refine ⟨j, h1, h2, setk, h3, (h4 u).2 ?_⟩
      simp only [Acceptor.Den]
      exact ⟨j, le_refl _, le_refl _, hr⟩
    · rintro ⟨k, h1, h2, setk, h3, hu⟩
      obtain ⟨setk2, h4, h5⟩ := Acceptor.Accept_spec fuel (.Count c k k) (hcnt k k)
        (hcb k h1 h2) s hf
      rw [h3] at h4
      cases h4
      have := (h5 u).1 hu
      simp only [Acceptor.Den] at this
      obtain ⟨j, j1, j2, hr⟩ := this
      exact ⟨j, by omega, by omega, hr⟩

/-- C8 at the node `Count{Single '@', 3, 5}` of `TestAcceptor` and the input `@@@@`. -/
theorem Count_Accept_union_witness :
    ∃ set, (Acceptor.Count (.Single 64) 3 5).Accept 5 [64, 64, 64, 64] = .ok set ∧
      (∀ k : Int, 3 ≤ k → k ≤ 5 →
        ∃ setk, (Acceptor.Count (.Single 64) k k).Accept 5 [64, 64, 64, 64] = .ok setk) ∧
      ∀ u, u ∈ set ↔
        ∃ k : Int, 3 ≤ k ∧ k ≤ 5 ∧
          ∃ setk, (Acceptor.Count (.Single 64) k k).Accept 5 [64, 64, 64, 64] = .ok setk ∧
            u ∈ setk :=
  Count_Accept_union (.Single 64) rfl rfl 3 5 (by decide) (by decide) (by decide) (by decide)
    [64, 64, 64, 64] 5 (by decide)

/-- C8, as the spec states it, fails at `m = 0`, `n = 9223372036854775807`, the child
`Single 'a'` and the empty input: `Count{c,0,0}.Accept` returns the set that holds the
empty string, a member of the union on the right, and `Count{c,m,n}.Accept` returns no
set, whatever the fuel: the counter of its second loop wraps around and never passes `n`,
so that the loop is still running after any number `k` of rounds. -/
theorem Count_Accept_union_counterexample :
    (Acceptor.Count (.Single 97) 0 0).Accept 1 [] = .ok [[]] ∧
      (∀ (depths : Int → Set) (k : Nat) (out : Set),
        Count.collect depths 9223372036854775807 k 0 out = .diverge) ∧
      ¬ ∃ (fuel : Nat) (set : Set),
        (Acceptor.Count (.Single 97) 0 9223372036854775807).Accept fuel [] = .ok set := by
  refine ⟨rfl, fun depths k out => Count.collect_diverge depths k 0 out (by decide), ?_⟩
  rintro ⟨fuel, set, h⟩
  simp only [Acceptor.Accept] at h
  exact Count.run_diverge _ 0 (by decide) [] set h

/-- C9 (the code does otherwise): on a class body that ends in `-` after a member, such as
`a-` or `ab-`, `parseRange` panics with an index out of range at `input[i+2]`; the body
`-a`, which starts with the hyphen, is parsed. -/
theorem parseRange_trailing_hyphen :
    parseRange [97, 45, 93] = .panicked ∧ parseRange [97, 98, 45, 93] = .panicked ∧
      Parse [91, 97, 45, 93] = .panicked ∧
      parseRange [45, 97, 93] = .ok (.Pipe (.Pipe (.Single 45) (.Single 45)) (.Single 97), 3) :=
  ⟨rfl, rfl, rfl, rfl⟩

/-- C10 as stated fails: the regexp of the pattern `[a.*]` matches the two-byte input
`ab`, which is none of the single-byte strings `a`, `.`, `*`. -/
theorem Match_class_counterexample :
    Parse [91, 97, 46, 42, 93] = .ok [.Pipe (.Pipe (.Single 97) (.Single 46)) (.Single 42)] ∧
      Regexp.Match 3 [.Pipe (.Pipe (.Single 97) (.Single 46)) (.Single 42)] [97, 98] = .ok true ∧
      ([97, 98] : Str) ≠ [97] ∧ ([97, 98] : Str) ≠ [46] ∧ ([97, 98] : Str) ≠ [42] :=
  ⟨rfl, rfl, by decide, by decide, by decide⟩

/-- C10 amended: the regexp of the pattern `[a.*]` matches an input exactly when the input
is not empty and its first byte is `a`, `.` or `*`. -/
theorem Match_class :
    Parse [91, 97, 46, 42, 93] = .ok [.Pipe (.Pipe (.Single 97) (.Single 46)) (.Single 42)] ∧
      ∀ (s : Str) (fuel : Nat), ∃ b,
        Regexp.Match fuel [.Pipe (.Pipe (.Single 97) (.Single 46)) (.Single 42)] s = .ok b ∧
          (b = true ↔ ∃ c rest, s = c :: rest ∧ (c = 97 ∨ c = 46 ∨ c = 42)) := by
  refine ⟨rfl, fun s fuel => ?_⟩
  cases s with
  | nil => exact ⟨false, rfl, by simp⟩
  | cons c rest =>
    by_cases h1 : c = 97
    · subst h1
      exact ⟨true, rfl, by simp⟩
    by_cases h2 : c = 46
    · subst h2
      exact ⟨true, rfl, by simp⟩
    by_cases h3 : c = 42
    · subst h3
      exact ⟨true, rfl, by simp⟩
    refine ⟨false, ?_, by simp [h1, h2, h3]⟩
    have e1 : (97 : UInt8) ≠ c := fun h => h1 h.symm
    have e2 : (46 : UInt8) ≠ c := fun h => h2 h.symm
    have e3 : (42 : UInt8) ≠ c := fun h => h3 h.symm
    simp only [Regexp.Match, Sequence.Accept, Acceptor.Accept, if_pos e1, if_pos e2, if_pos e3,
      Outcome.bind_ok]
    rfl


/-! ### Literal bytes, quantifiers and escapes at the end of a pattern -/

theorem Parse.step_literal (out : List Acceptor) (ch : UInt8) (input : Str)
    (h : Parse.isLiteral ch = true) :
    Parse.step out ch input = .next (out ++ [.Single ch]) input := by
  simp only [Parse.isLiteral, Bool.and_eq_true, bne_iff_ne, ne_eq] at h
  obtain ⟨⟨⟨⟨⟨⟨⟨h1, h2⟩, h3⟩, h4⟩, h5⟩, h6⟩, h7⟩, h8⟩ := h
  simp only [Parse.step, h1, h2, h3, h4, h5, h6, h7, h8, ↓reduceIte]

theorem Parse.loop_literal : ∀ (p : Str) (fuel : Nat) (out : List Acceptor),
    p.length ≤ fuel → (∀ c ∈ p, Parse.isLiteral c = true) →
      Parse.loop fuel out p = .ok (out ++ p.map Acceptor.Single)
  | [], fuel, out, _, _ => by simp
  | c :: rest, 0, out, h, _ => by simp at h
  | c :: rest, fuel + 1, out, h, hl => by
    rw [Parse.loop_cons, Parse.step_literal out c rest (hl c (List.mem_cons_self _ _))]
    simp only
    rw [Parse.loop_literal rest fuel _ (by simpa using h)
      (fun d hd => hl d (List.mem_cons_of_mem _ hd))]
    simp

/-- `Parse` of a pattern followed by more input: the pattern is consumed as it is alone,
and the loop goes on with what follows. -/
theorem Parse_append (p X : Str) (out : Regexp) (hp : (124 : UInt8) ∉ p)
    (h : Parse p = .ok out) : Parse (p ++ X) = Parse.loop X.length out X := by
  unfold Parse at *
  rw [List.length_append]
  exact Parse.loop_append p.length [] p out (Nat.le_refl _) hp h X

theorem Parse.wrapLast_append (wrap : Acceptor → Acceptor) (init : List Acceptor)
    (x : Acceptor) (input : Str) :
    Parse.wrapLast wrap (init ++ [x]) input = .next (init ++ [wrap x]) input := by
  simp [Parse.wrapLast]

theorem Parse.wrapLast_nil (wrap : Acceptor → Acceptor) (input : Str) :
    Parse.wrapLast wrap [] input = .fail "syntax error" := rfl


theorem Sequence.Den_map_Single : ∀ (p s u : Str),
    Sequence.Den (p.map Acceptor.Single) s u ↔ s = p ++ u
  | [], s, u => by
    simp only [List.map_nil, Sequence.Den, List.nil_append]
    exact eq_comm
  | c :: rest, s, u => by
    simp only [List.map_cons, Sequence.Den, Acceptor.Den, List.cons_append]
    constructor
    · rintro ⟨t, rfl, h⟩
      rw [(Sequence.Den_map_Single rest t u).1 h]
    · intro h
      exact ⟨rest ++ u, h, (Sequence.Den_map_Single rest _ u).2 rfl⟩

theorem Sequence.countsBelowMax_map_Single : ∀ (p : Str),
    Sequence.countsBelowMax (p.map Acceptor.Single) = true
  | [] => rfl
  | c :: p => by
    simp only [List.map_cons, Sequence.countsBelowMax, Acceptor.countsBelowMax, Bool.true_and]
    exact Sequence.countsBelowMax_map_Single p

theorem Sequence.hasPlaceHolder_map_Single (p : Str) :
    Sequence.hasPlaceHolder (p.map Acceptor.Single) = false := by
  rw [Sequence.hasPlaceHolder_iff]
  intro a ha
  obtain ⟨c, -, rfl⟩ := List.mem_map.1 ha
  rfl

/-- C12: a pattern whose first byte is `*`, `+`, `?` or `{` is an error, whatever follows. -/
theorem Parse_dangling_quantifier (c : UInt8) (rest : Str)
    (h : c = 42 ∨ c = 43 ∨ c = 63 ∨ c = 123) : Parse (c :: rest) = .error "syntax error" := by
  rcases h with rfl | rfl | rfl | rfl <;> rfl

/-- C12 at the patterns `*a`, `+`, `?x` and `{1,2}`. -/
theorem Parse_dangling_quantifier_witness :
    Parse [42, 97] = .error "syntax error" ∧ Parse [43] = .error "syntax error" ∧
      Parse [63, 120] = .error "syntax error" ∧
      Parse [123, 49, 44, 50, 125] = .error "syntax error" :=
  ⟨Parse_dangling_quantifier 42 [97] (Or.inl rfl),
    Parse_dangling_quantifier 43 [] (Or.inr (Or.inl rfl)),
    Parse_dangling_quantifier 63 [120] (Or.inr (Or.inr (Or.inl rfl))),
    Parse_dangling_quantifier 123 [49, 44, 50, 125] (Or.inr (Or.inr (Or.inr rfl)))⟩

/-- C15: the empty pattern parses to the empty sequence, and the resulting regexp matches
every input, empty or not. -/
theorem Parse_empty :
    Parse [] = .ok [] ∧ ∀ (s : Str) (fuel : Nat), Regexp.Match fuel [] s = .ok true :=
  ⟨rfl, fun _ _ => rfl⟩

/-- C16: for a pattern `p` without the byte `|` that parses to `out` and every byte `c`,
the pattern `p`, backslash, `c` parses to `out` followed by `Single{c}`. -/
theorem Parse_escape (p : Str) (out : Regexp) (c : UInt8) (hp : (124 : UInt8) ∉ p)
    (h : Parse p = .ok out) : Parse (p ++ [92, c]) = .ok (out ++ [.Single c]) := by
  rw [Parse_append p [92, c] out hp h]
  rfl

/-- C16 at the pattern backslash-star of `TestParse` (empty `p`), and at an escaped `|`
after the pattern `a`. -/
theorem Parse_escape_witness :
    Parse [92, 42] = .ok [.Single 42] ∧ Parse [97, 92, 124] = .ok [.Single 97, .Single 124] :=
  ⟨Parse_escape [] [] 42 (by decide) rfl, Parse_escape [97] [.Single 97] 124 (by decide) rfl⟩

/-- C17: `Dot.Accept(s)` is empty exactly when `s` is empty or its first byte is 0 or at
least 128; in every other case it is the singleton of `s` without its first byte. -/
theorem Dot_Accept (s : Str) (fuel : Nat) :
    ∃ set, Acceptor.Dot.Accept fuel s = .ok set ∧
      (set = [] ↔ s = [] ∨ ∃ c rest, s = c :: rest ∧ (c = 0 ∨ c ≥ 128)) ∧
      (set ≠ [] → ∃ c rest, s = c :: rest ∧ set = [rest]) := by
  cases s with
  | nil => exact ⟨[], rfl, by simp, by simp⟩
  | cons c rest =>
    by_cases hc : c = 0 ∨ c ≥ 0x80
    · refine ⟨[], by simp only [Acceptor.Accept, if_pos hc], ?_, by simp⟩
      simp only [true_iff]
      exact Or.inr ⟨c, rest, rfl, hc⟩
    · refine ⟨[rest], by simp only [Acceptor.Accept, if_neg hc]; rfl, ?_,
        fun _ => ⟨c, rest, rfl, rfl⟩⟩
      simp only [List.cons_ne_nil, false_iff, not_or, not_exists, not_and, not_false_eq_true,
        true_and, List.cons.injEq, and_imp]
      rintro c2 rest2 rfl -
      exact not_or.1 hc

/-- C18: for a pattern `p` without the byte `|` that parses to a list ending in `x`, the
patterns `p*`, `p+` and `p?` parse to the same list with only `x` replaced by `Star{x}`,
`Plus{x}` and `Maybe{x}`. -/
theorem Parse_quantifier (p : Str) (init : List Acceptor) (x : Acceptor)
    (hp : (124 : UInt8) ∉ p) (h : Parse p = .ok (init ++ [x])) :
    Parse (p ++ [42]) = .ok (init ++ [.Star x]) ∧
      Parse (p ++ [43]) = .ok (init ++ [.Plus x]) ∧
      Parse (p ++ [63]) = .ok (init ++ [.Maybe x]) := by
  refine ⟨?_, ?_, ?_⟩
  · rw [Parse_append p [42] _ hp h]
    show (match Parse.wrapLast Acceptor.Star (init ++ [x]) [] with
      | .next out2 rest => Parse.loop 0 out2 rest
      | .alt left rest => _
      | .fail msg => .error msg
      | .crash => .panicked) = _
    rw [Parse.wrapLast_append]
    rfl
  · rw [Parse_append p [43] _ hp h]
    show (match Parse.wrapLast Acceptor.Plus (init ++ [x]) [] with
      | .next out2 rest => Parse.loop 0 out2 rest
      | .alt left rest => _
      | .fail msg => .error msg
      | .crash => .panicked) = _
    rw [Parse.wrapLast_append]
    rfl
  · rw [Parse_append p [63] _ hp h]
    show (match Parse.wrapLast Acceptor.Maybe (init ++ [x]) [] with
      | .next out2 rest => Parse.loop 0 out2 rest
      | .alt left rest => _
      | .fail msg => .error msg
      | .crash => .panicked) = _
    rw [Parse.wrapLast_append]
    rfl

/-- C18 at the pattern `awk` of `TestParse`: `awk+` keeps `a`, `w` and wraps `k`. -/
theorem Parse_quantifier_witness :
    Parse [97, 119, 107, 42] = .ok [.Single 97, .Single 119, .Star (.Single 107)] ∧
      Parse [97, 119, 107, 43] = .ok [.Single 97, .Single 119, .Plus (.Single 107)] ∧
      Parse [97, 119, 107, 63] = .ok [.Single 97, .Single 119, .Maybe (.Single 107)] :=
  Parse_quantifier [97, 119, 107] [.Single 97, .Single 119] (.Single 107) (by decide) rfl

/-- C20: a pattern made of bytes without a case in the `switch` of `Parse` parses to one
`Single` node per byte, in order, and the resulting regexp matches an input exactly when
the pattern is a prefix of the input. -/
theorem Parse_literals (p : Str) (hp : ∀ c ∈ p, Parse.isLiteral c = true) :
    Parse p = .ok (p.map Acceptor.Single) ∧
      ∀ (s : Str) (fuel : Nat), s.length < fuel →
        ∃ b, Regexp.Match fuel (p.map Acceptor.Single) s = .ok b ∧ (b = true ↔ p <+: s) := by
  refine ⟨by simpa using Parse.loop_literal p p.length [] (Nat.le_refl _) hp,
    fun s fuel hf => ?_⟩
  obtain ⟨b, hb, hiff⟩ := Regexp.Match_spec fuel (p.map Acceptor.Single)
    (Sequence.hasPlaceHolder_map_Single p) (Sequence.countsBelowMax_map_Single p) s hf
  refine ⟨b, hb, hiff.trans ?_⟩
  constructor
  · rintro ⟨u, hu⟩
    exact ⟨u, ((Sequence.Den_map_Single p s u).1 hu).symm⟩
  · rintro ⟨u, hu⟩
    exact ⟨u, (Sequence.Den_map_Single p s u).2 hu.symm⟩

/-- C20 at the pattern `ab`: it parses to two `Single` nodes, matches `abc` and does not
match `ac`. -/
theorem Parse_literals_witness :
    Parse [97, 98] = .ok [.Single 97, .Single 98] ∧
      Regexp.Match 4 [.Single 97, .Single 98] [97, 98, 99] = .ok true ∧
      Regexp.Match 3 [.Single 97, .Single 98] [97, 99] = .ok false ∧
      ∀ (s : Str) (fuel : Nat), s.length < fuel →
        ∃ b, Regexp.Match fuel [.Single 97, .Single 98] s = .ok b ∧
          (b = true ↔ [97, 98] <+: s) :=
  ⟨rfl, rfl, rfl, (Parse_literals [97, 98] (by decide)).2⟩


/-! ### A class of plain members -/

theorem parseRange.scan_find : ∀ (t X : Str) (e0 : Nat), (93 : UInt8) ∉ t →
    parseRange.scan (t ++ 93 :: X) e0 = .ok (e0 + t.length)
  | [], X, e0, _ => by simp [parseRange.scan]
  | c :: rest, X, e0, h => by
    have hc : c ≠ 93 := fun hc => h (by simp [hc])
    have hr : (93 : UInt8) ∉ rest := fun hr => h (List.mem_cons_of_mem _ hr)
    rw [List.cons_append, parseRange.scan, if_neg hc, parseRange.scan_find rest X (e0 + 1) hr]
    simp only [List.length_cons]
    congr 1
    omega

theorem parseRange.members_plain : ∀ (s : Str) (choices : List Acceptor), (45 : UInt8) ∉ s →
    parseRange.members s choices = .ok (choices ++ s.map Acceptor.Single)
  | [], choices, _ => by simp [parseRange.members]
  | [x], choices, _ => by simp [parseRange.members]
  | [x, y], choices, h => by
    have hy : y ≠ 45 := fun hy => h (by simp [hy])
    simp [parseRange.members, hy]
  | x :: y :: z :: rest, choices, h => by
    have hy : y ≠ 45 := fun hy => h (by simp [hy])
    have hr : (45 : UInt8) ∉ y :: z :: rest := fun hr => h (List.mem_cons_of_mem _ hr)
    simp only [parseRange.members, if_neg hy]
    rw [parseRange.members_plain (y :: z :: rest) _ hr]
    simp

theorem parseRange_plain (m1 : UInt8) (rest : Str) (h45 : (45 : UInt8) ∉ m1 :: rest)
    (h93 : (93 : UInt8) ∉ m1 :: rest) (X : Str) :
    parseRange (m1 :: rest ++ 93 :: X) =
      .ok ((rest.map Acceptor.Single).foldl Acceptor.Pipe (.Single m1),
        (rest.length : Int) + 2) := by
  have hm : m1 ≠ 93 := fun hc => h93 (by simp [hc])
  have hscan := parseRange.scan_find (m1 :: rest) X 0 h93
  have htake : (m1 :: (rest ++ 93 :: X)).take (rest.length + 1) = m1 :: rest := by
    rw [← List.cons_append]
    exact List.take_left' (by simp)
  have hlast : ∃ l, (m1 :: rest).getLast? = some l ∧ l ≠ 45 := by
    refine ⟨(m1 :: rest).getLast (by simp), List.getLast?_eq_getLast _ _, fun hl => h45 ?_⟩
    rw [← hl]
    exact List.getLast_mem _
  obtain ⟨l, hl, hl45⟩ := hlast
  have hm45 : m1 ≠ 45 := fun hc => h45 (by simp [hc])
  simp only [List.cons_append, parseRange, if_neg hm, List.drop_zero]
  rw [← List.cons_append, hscan]
  simp only [Outcome.bind_ok, Nat.zero_add, List.length_cons, List.cons_append]
  have hnot : ¬ rest.length + 1 ≥ (rest ++ 93 :: X).length + 1 := by simp
  rw [if_neg hnot, htake, hl]
  simp only [List.head?_cons, hm45, hl45, or_self, if_false]
  rw [parseRange.members_plain (m1 :: rest) [] h45]
  simp only [List.nil_append, List.map_cons, Outcome.bind_ok]
  congr 2

/-- C19 as stated fails: for the class body `a.*`, `parseRange` returns the chain grouped
to the left, `Pipe{Pipe{a, .}, *}` (the value `TestParse` expects), not the chain grouped
to the right. -/
theorem parseRange_chain_counterexample :
    parseRange [97, 46, 42, 93] =
        .ok (.Pipe (.Pipe (.Single 97) (.Single 46)) (.Single 42), 4) ∧
      parseRange [97, 46, 42, 93] ≠
        .ok (.Pipe (.Single 97) (.Pipe (.Single 46) (.Single 42)), 4) := by
  refine ⟨rfl, fun h => ?_⟩
  have h2 : parseRange [97, 46, 42, 93] =
      .ok (.Pipe (.Pipe (.Single 97) (.Single 46)) (.Single 42), 4) := rfl
  rw [h2] at h
  simp at h

/-- C19 amended: for a class body of plain members `m1 ... mn` (no `-`, no `]`),
`parseRange` returns the chain of alternations grouped to the left,
`Pipe{... Pipe{Pipe{m1, m2}, m3} ..., mn}`, and the index after the closing `]`. -/
theorem parseRange_chain (m1 : UInt8) (rest : Str) (h45 : (45 : UInt8) ∉ m1 :: rest)
    (h93 : (93 : UInt8) ∉ m1 :: rest) :
    parseRange (m1 :: rest ++ [93]) =
      .ok (rest.foldl (fun lhs m => .Pipe lhs (.Single m)) (.Single m1),
        (rest.length : Int) + 2) := by
  rw [parseRange_plain m1 rest h45 h93 [], List.foldl_map]

/-- C19 amended, at the class body `a.*` of `TestParse`. -/
theorem parseRange_chain_witness :
    parseRange [97, 46, 42, 93] =
      .ok (.Pipe (.Pipe (.Single 97) (.Single 46)) (.Single 42), 4) :=
  parseRange_chain 97 [46, 42] (by decide) (by decide)


/-! ### `Plus` as a sequence, and bounded repetition of one byte -/

theorem Star.loop_nodup (f : Str → Outcome Set) : ∀ (fuel : Nat) (set : Set)
    (queue : List Str) (res : Set), set.Nodup → Star.loop f fuel set queue = .ok res →
      res.Nodup
  | fuel, set, [], res, hn, h => by
    have : Star.loop f fuel set [] = .ok set := by cases fuel <;> rfl
    rw [this] at h
    cases h
    exact hn
  | 0, set, _ :: _, res, _, h => by simp [Star.loop] at h
  | fuel + 1, set, popd :: queue, res, hn, h => by
    simp only [Star.loop] at h
    obtain ⟨next, -, h2⟩ := Outcome.bind_eq_ok h
    exact Star.loop_nodup f fuel _ _ res ((Star.foldl_visit next set queue).1 hn) h2

theorem stringset.foldl_Add_nodup : ∀ (l : List Str) (acc : Set), (acc ++ l).Nodup →
    l.foldl stringset.Add acc = acc ++ l
  | [], acc, _ => by simp
  | x :: l, acc, h => by
    have hx : x ∉ acc := by
      intro hx
      have := List.nodup_append.1 h
      exact this.2.2 hx (List.mem_cons_self _ _)
    have hadd : stringset.Add acc x = acc ++ [x] := by simp [stringset.Add, hx]
    rw [List.foldl_cons, hadd, stringset.foldl_Add_nodup l (acc ++ [x]) (by simpa using h)]
    simp

theorem unionOver_singletons : ∀ (nx : List Str) (out : Set),
    unionOver (fun m => Outcome.ok (New [m])) nx out = .ok (nx.foldl stringset.Add out)
  | [], out => rfl
  | n :: nx, out => by
    simp only [unionOver, Outcome.bind_ok, List.foldl_cons]
    exact unionOver_singletons nx _

theorem Sequence.Accept_Star (fuel : Nat) (c : Acceptor) (n : Str) :
    Sequence.Accept fuel [.Star c] n = Star.run (c.Accept fuel) fuel n := by
  simp only [Sequence.Accept, Acceptor.Accept]
  cases h : Star.run (c.Accept fuel) fuel n with
  | ok nx =>
    have hnd : nx.Nodup := Star.loop_nodup (c.Accept fuel) fuel (New [n]) [n] nx (by simp) h
    simp only [Outcome.bind_ok]
    rw [unionOver_singletons, stringset.New_nil,
      stringset.foldl_Add_nodup nx [] (by simpa using hnd)]
    simp
  | error m => rfl
  | panicked => rfl
  | diverge => rfl

theorem Plus.Accept_eq_Sequence (fuel : Nat) (c : Acceptor) (s : Str) :
    (Acceptor.Plus c).Accept fuel s = (Acceptor.Sequence [c, .Star c]).Accept fuel s := by
  have hfun : Sequence.Accept fuel [.Star c] = Star.run (c.Accept fuel) fuel :=
    funext (Sequence.Accept_Star fuel c)
  show (c.Accept fuel s).bind (fun next =>
      unionOver (Star.run (c.Accept fuel) fuel) next (New [])) =
    (c.Accept fuel s).bind (fun next =>
      unionOver (Sequence.Accept fuel [.Star c]) next (New []))
  rw [hfun]

/-- C13: for every child `c` and input `s`, `Plus{c}.Accept(s)` is
`Sequence{c, Star{c}}.Accept(s)` (the same outcome and the same set); whenever it returns,
`c.Accept(s)` has returned, `Star{c}.Accept(t)` has returned for every `t` in
`c.Accept(s)`, and the result is the union of these sets; and it returns for a child
built from the nine variants whose `Count` bounds are below the largest `int`. -/
theorem Plus_Accept (c : Acceptor) (s : Str) (fuel : Nat) :
    (Acceptor.Plus c).Accept fuel s = (Acceptor.Sequence [c, .Star c]).Accept fuel s ∧
      (∀ set, (Acceptor.Plus c).Accept fuel s = .ok set →
        ∃ next, c.Accept fuel s = .ok next ∧
          (∀ t ∈ next, ∃ st, (Acceptor.Star c).Accept fuel t = .ok st) ∧
          ∀ u, u ∈ set ↔
            ∃ t ∈ next, ∃ st, (Acceptor.Star c).Accept fuel t = .ok st ∧ u ∈ st) ∧
      (c.hasPlaceHolder = false → c.countsBelowMax = true → s.length < fuel →
        ∃ set, (Acceptor.Plus c).Accept fuel s = .ok set) := by
  refine ⟨Plus.Accept_eq_Sequence fuel c s, fun set hset => ?_, fun hc hb hf => ?_⟩
  · have hset2 : (c.Accept fuel s).bind (fun next =>
        unionOver (Star.run (c.Accept fuel) fuel) next (New [])) = .ok set := hset
    obtain ⟨next, hnext, hu⟩ := Outcome.bind_eq_ok hset2
    obtain ⟨h1, h2⟩ := unionOver_ok _ _ _ _ hu
    refine ⟨next, hnext, h1, fun u => ?_⟩
    rw [h2]
    simp only [stringset.New_nil, List.not_mem_nil, false_or]
    rfl
  · obtain ⟨set, hset, -⟩ := Acceptor.Accept_spec fuel (.Plus c)
      (by simpa [Acceptor.hasPlaceHolder]) (by simpa [Acceptor.countsBelowMax]) s hf
    exact ⟨set, hset⟩

/-- C13 at the node `Plus{Range 'a'..'f'}` of `TestAcceptor` and the input `abc`. -/
theorem Plus_Accept_witness :
    (Acceptor.Plus (.Range 97 102)).Accept 4 [97, 98, 99] = .ok [[98, 99], [99], []] ∧
      (Acceptor.Sequence [.Range 97 102, .Star (.Range 97 102)]).Accept 4 [97, 98, 99] =
        .ok [[98, 99], [99], []] ∧
      (∃ next, (Acceptor.Range 97 102).Accept 4 [97, 98, 99] = .ok next ∧
        (∀ t ∈ next, ∃ st, (Acceptor.Star (.Range 97 102)).Accept 4 t = .ok st) ∧
        ∀ u, u ∈ ([[98, 99], [99], []] : Set) ↔
          ∃ t ∈ next, ∃ st,
            (Acceptor.Star (.Range 97 102)).Accept 4 t = .ok st ∧ u ∈ st) ∧
      ∃ set, (Acceptor.Plus (.Range 97 102)).Accept 4 [97, 98, 99] = .ok set :=
  ⟨rfl, rfl, (Plus_Accept (.Range 97 102) [97, 98, 99] 4).2.1 _ rfl,
    (Plus_Accept (.Range 97 102) [97, 98, 99] 4).2.2 rfl rfl (by decide)⟩

theorem Reach_Single_length (c : UInt8) : ∀ (j : Nat) (s u : Str),
    Reach (fun x y => (Acceptor.Single c).Den x y) j s u → s.length = u.length + j
  | 0, s, u, h => by
    simp only [Reach] at h
    simp [h]
  | j + 1, s, u, h => by
    obtain ⟨t, h1, h2⟩ := h
    have := Reach_Single_length c j s t h1
    simp only [Acceptor.Den] at h2
    subst h2
    simp only [List.length_cons] at this
    omega

theorem Reach_Single_replicate (c : UInt8) : ∀ (j m : Nat),
    Reach (fun x y => (Acceptor.Single c).Den x y) j (List.replicate (j + m) c)
      (List.replicate m c)
  | 0, m => by simp [Reach]
  | j + 1, m => by
    refine ⟨List.replicate (m + 1) c, ?_, ?_⟩
    · have := Reach_Single_replicate c j (m + 1)
      rwa [show j + (m + 1) = j + 1 + m by omega] at this
    · simp only [Acceptor.Den]
      rfl

/-- C14: the pattern `b{8,100}` parses to `[Count{Single 'b', 8, 100}]`, and the resulting
regexp matches the string of `k` copies of `b` exactly when `k >= 8`. -/
theorem Parse_count_b (k fuel : Nat) (hf : k < fuel) :
    Parse [98, 123, 56, 44, 49, 48, 48, 125] = .ok [.Count (.Single 98) 8 100] ∧
      ∃ b, Regexp.Match fuel [.Count (.Single 98) 8 100] (List.replicate k 98) = .ok b ∧
        (b = true ↔ 8 ≤ k) := by
  refine ⟨rfl, ?_⟩
  obtain ⟨b, hb, hiff⟩ := Regexp.Match_spec fuel [.Count (.Single 98) 8 100] rfl rfl
    (List.replicate k 98) (by simpa using hf)
  refine ⟨b, hb, hiff.trans ?_⟩
  simp only [Sequence.Den, Acceptor.Den]
  constructor
  · rintro ⟨u, t, ⟨j, h1, -, hr⟩, -⟩
    have := Reach_Single_length 98 j _ _ hr
    simp only [List.length_replicate] at this
    omega
  · intro hk
    refine ⟨List.replicate (k - 8) 98, List.replicate (k - 8) 98, ⟨8, by simp, by simp, ?_⟩, rfl⟩
    have := Reach_Single_replicate 98 8 (k - 8)
    rwa [show 8 + (k - 8) = k by omega] at this

set_option maxRecDepth 100000 in
/-- C14 at 8 and at 7 copies of `b`, the cases of the spec. -/
theorem Parse_count_b_witness :
    Regexp.Match 9 [.Count (.Single 98) 8 100] (List.replicate 8 98) = .ok true ∧
      Regexp.Match 9 [.Count (.Single 98) 8 100] (List.replicate 7 98) = .ok false ∧
      ∃ b, Regexp.Match 9 [.Count (.Single 98) 8 100] (List.replicate 8 98) = .ok b ∧
        (b = true ↔ 8 ≤ 8) :=
  ⟨rfl, rfl, (Parse_count_b 8 9 (by decide)).2⟩


/-! ### What the scan of `{m,n}` accepts -/

theorem fmt.SkipSpace_inv : ∀ (s r : Str), fmt.SkipSpace s = .ok r →
    ∃ sp, s = sp ++ r ∧ ∀ c ∈ sp, fmt.isSpace c = true
  | [], r, h => by
    simp only [fmt.SkipSpace, Outcome.ok.injEq] at h
    subst h
    exact ⟨[], rfl, by simp⟩
  | c :: rest, r, h => by
    by_cases h10 : c = 10
    · simp [fmt.SkipSpace, h10] at h
    · by_cases hsp : fmt.isSpace c = true
      · simp only [fmt.SkipSpace, if_neg h10, hsp, if_true] at h
        obtain ⟨sp, h1, h2⟩ := fmt.SkipSpace_inv rest r h
        refine ⟨c :: sp, by rw [h1, List.cons_append], ?_⟩
        intro d hd
        rcases List.mem_cons.1 hd with rfl | hd
        · exact hsp
        · exact h2 d hd
      · simp only [fmt.SkipSpace, if_neg h10, hsp, Bool.false_eq_true, if_false,
          Outcome.ok.injEq] at h
        subst h
        exact ⟨[], rfl, by simp⟩

theorem fmt.scanNumber_inv {neg : Bool} {s r : Str} {v : Int}
    (h : fmt.scanNumber neg s = .ok (v, r)) :
    ∃ ds, s = ds ++ r ∧ ds ≠ [] ∧ ∀ c ∈ ds, (48 : UInt8) ≤ c ∧ c ≤ 57 := by
  unfold fmt.scanNumber at h
  split_ifs at h with hs
  have hr := fmt.parseInt_rest h
  simp only at hr
  unfold fmt.parseInt at h
  split_ifs at h with h1 h2 h3 h4 h5
  all_goals
    refine ⟨s.takeWhile fmt.isDigit, ?_, h1, fun c hc => ?_⟩
    · rw [hr, List.takeWhile_append_dropWhile]
    · have hd := List.mem_takeWhile_imp hc
      have hne : c ≠ 95 := fun hne => h2 (hne ▸ hc)
      simp only [fmt.isDigit, Bool.or_eq_true, Bool.and_eq_true, decide_eq_true_eq] at hd
      rcases hd with hd | hd
      · exact hd
      · exact absurd hd hne

theorem fmt.scanInt_inv {s r : Str} {v : Int} (h : fmt.scanInt s = .ok (v, r)) :
    fmt.BeginsWithInt s r := by
  unfold fmt.scanInt at h
  obtain ⟨s1, hs1, h⟩ := Outcome.bind_eq_ok h
  obtain ⟨sp, hsp, hspace⟩ := fmt.SkipSpace_inv s s1 hs1
  cases s1 with
  | nil => simp at h
  | cons c r1 =>
    simp only at h
    split_ifs at h with h45 h43
    · obtain ⟨ds, h1, h2, h3⟩ := fmt.scanNumber_inv h
      exact ⟨sp, [45], ds, by rw [hsp, h45, h1]; simp, hspace, Or.inr (Or.inr rfl), h2, h3⟩
    · obtain ⟨ds, h1, h2, h3⟩ := fmt.scanNumber_inv h
      exact ⟨sp, [43], ds, by rw [hsp, h43, h1]; simp, hspace, Or.inr (Or.inl rfl), h2, h3⟩
    · obtain ⟨ds, h1, h2, h3⟩ := fmt.scanNumber_inv h
      exact ⟨sp, [], ds, by rw [hsp, h1]; simp, hspace, Or.inl rfl, h2, h3⟩

theorem fmt.Sscanf_inv {s : Str} {p : Int × Int} (h : fmt.Sscanf s = .ok p) :
    ∃ mid rest, fmt.BeginsWithInt s (44 :: mid) ∧ fmt.BeginsWithInt mid rest := by
  unfold fmt.Sscanf at h
  obtain ⟨r1, hr1, h⟩ := Outcome.bind_eq_ok h
  obtain ⟨v1, t1⟩ := r1
  cases t1 with
  | nil => simp at h
  | cons c r2 =>
    simp only at h
    split_ifs at h with hc
    obtain ⟨r3, hr3, -⟩ := Outcome.bind_eq_ok h
    obtain ⟨v2, t3⟩ := r3
    have hc2 : c = 44 := by simpa using hc
    subst hc2
    exact ⟨r2, t3, fmt.scanInt_inv hr1, fmt.scanInt_inv hr3⟩

theorem fmt.Sscanf_returns (s : Str) :
    (∃ p, fmt.Sscanf s = .ok p) ∨ ∃ msg, fmt.Sscanf s = .error msg := by
  have hskip : ∀ t : Str, (∃ r, fmt.SkipSpace t = .ok r) ∨ ∃ msg, fmt.SkipSpace t = .error msg := by
    intro t
    induction t with
    | nil => exact Or.inl ⟨[], rfl⟩
    | cons c rest ih =>
      simp only [fmt.SkipSpace]
      split_ifs
      · exact Or.inr ⟨_, rfl⟩
      · exact ih
      · exact Or.inl ⟨_, rfl⟩
  have hnum : ∀ (neg : Bool) (t : Str),
      (∃ p, fmt.scanNumber neg t = .ok p) ∨ ∃ msg, fmt.scanNumber neg t = .error msg := by
    intro neg t
    unfold fmt.scanNumber fmt.parseInt
    split_ifs
    all_goals first | exact Or.inr ⟨_, rfl⟩ | exact Or.inl ⟨_, rfl⟩
  have hint : ∀ t : Str,
      (∃ p, fmt.scanInt t = .ok p) ∨ ∃ msg, fmt.scanInt t = .error msg := by
    intro t
    unfold fmt.scanInt
    rcases hskip t with ⟨r, hr⟩ | ⟨msg, hm⟩
    · rw [hr]
      cases r with
      | nil => exact Or.inr ⟨_, rfl⟩
      | cons c r1 =>
        simp only [Outcome.bind_ok]
        split_ifs
        · exact hnum _ _
        · exact hnum _ _
        · exact hnum _ _
    · rw [hm]
      exact Or.inr ⟨_, rfl⟩
  unfold fmt.Sscanf
  rcases hint s with ⟨p, hp⟩ | ⟨msg, hm⟩
  · rw [hp]
    obtain ⟨v, t⟩ := p
    cases t with
    | nil => exact Or.inr ⟨_, rfl⟩
    | cons c r2 =>
      simp only [Outcome.bind_ok]
      split_ifs
      · exact Or.inr ⟨_, rfl⟩
      · rcases hint r2 with ⟨p2, hp2⟩ | ⟨msg, hm⟩
        · rw [hp2]
          exact Or.inl ⟨_, rfl⟩
        · rw [hm]
          exact Or.inr ⟨_, rfl⟩
  · rw [hm]
    exact Or.inr ⟨_, rfl⟩

theorem Parse.skipBrace_find : ∀ (b X : Str), (125 : UInt8) ∉ b →
    Parse.skipBrace (b ++ 125 :: X) = some X
  | [], X, _ => by simp [Parse.skipBrace]
  | c :: rest, X, h => by
    have hc : c ≠ 125 := fun hc => h (by simp [hc])
    have hr : (125 : UInt8) ∉ rest := fun hr => h (List.mem_cons_of_mem _ hr)
    rw [List.cons_append, Parse.skipBrace, if_neg hc, Parse.skipBrace_find rest X hr]

/-- `Parse` of a literal byte `x` followed by `{`, a body without `}`, and `}`: the outcome
is the outcome of the scan of the two bounds. -/
theorem Parse_count_scan (x : UInt8) (b : Str) (hx : Parse.isLiteral x = true)
    (hb : (125 : UInt8) ∉ b) :
    Parse (x :: 123 :: (b ++ [125])) =
      match fmt.Sscanf (b ++ [125]) with
      | .ok (m, n) => .ok [.Count (.Single x) m n]
      | .error msg => .error msg
      | .panicked => .panicked
      | .diverge => .panicked := by
  simp only [Parse, List.length_cons, Parse.loop_cons, Parse.step_literal [] x _ hx,
    List.nil_append]
  have hstep : Parse.step [Acceptor.Single x] 123 (b ++ [125]) =
      match fmt.Sscanf (b ++ [125]) with
      | .ok (m, n) => .next [.Count (.Single x) m n] []
      | .error msg => .fail msg
      | .panicked => .crash
      | .diverge => .crash := by
    simp only [Parse.step, Parse.skipBrace_find b [] hb]
    rfl
  rw [hstep]
  cases fmt.Sscanf (b ++ [125]) with
  | ok p => simp
  | error msg => rfl
  | panicked => rfl
  | diverge => rfl

theorem append_singleton_split {b P r : Str} {x : UInt8} (h : b ++ [x] = P ++ r)
    (hx : x ∉ P) : ∃ r2, r = r2 ++ [x] ∧ b = P ++ r2 := by
  have hr : r ≠ [] := by
    rintro rfl
    rw [List.append_nil] at h
    exact hx (h ▸ by simp)
  have hsplit := List.dropLast_append_getLast hr
  rw [← hsplit, ← List.append_assoc] at h
  obtain ⟨h1, h2⟩ := List.append_inj' h rfl
  simp only [List.cons.injEq, and_true] at h2
  exact ⟨r.dropLast, by rw [h2]; exact hsplit.symm, h1⟩

theorem fmt.Sscanf_body {b : Str} {p : Int × Int}
    (h : fmt.Sscanf (b ++ [125]) = .ok p) : fmt.BeginsWithTwoInts b := by
  obtain ⟨mid, rest, ⟨sp, sg, ds, e1, a1, a2, a3, a4⟩, ⟨sp2, sg2, ds2, e2, b1, b2, b3, b4⟩⟩ :=
    fmt.Sscanf_inv h
  have hsp : ∀ t : Str, (∀ c ∈ t, fmt.isSpace c = true) → (125 : UInt8) ∉ t := by
    intro t ht hm
    have := ht 125 hm
    revert this
    decide
  have hsg : ∀ t : Str, (t = [] ∨ t = [43] ∨ t = [45]) → (125 : UInt8) ∉ t := by
    rintro t (rfl | rfl | rfl) <;> decide
  have hds : ∀ t : Str, (∀ c ∈ t, (48 : UInt8) ≤ c ∧ c ≤ 57) → (125 : UInt8) ∉ t := by
    intro t ht hm
    have := (ht 125 hm).2
    revert this
    decide
  have e : b ++ [125] = (sp ++ sg ++ ds ++ 44 :: (sp2 ++ sg2 ++ ds2)) ++ rest := by
    rw [e1, e2]
    simp
  have hno : (125 : UInt8) ∉ sp ++ sg ++ ds ++ 44 :: (sp2 ++ sg2 ++ ds2) := by
    simp only [List.mem_append, List.mem_cons, not_or]
    exact ⟨⟨⟨hsp sp a1, hsg sg a2⟩, hds ds a4⟩, by decide,
      ⟨hsp sp2 b1, hsg sg2 b2⟩, hds ds2 b4⟩
  obtain ⟨r2, -, hb2⟩ := append_singleton_split e hno
  refine ⟨sp2 ++ sg2 ++ ds2 ++ r2, r2, ⟨sp, sg, ds, ?_, a1, a2, a3, a4⟩,
    ⟨sp2, sg2, ds2, rfl, b1, b2, b3, b4⟩⟩
  rw [hb2]
  simp

/-- C11 as stated fails: the body `1,2junk` is not two integers separated by a comma and
nothing else, and `Parse` of `a{1,2junk}` succeeds with `Count{Single 'a', 1, 2}`: the
scan reads the two integers and the bytes up to `}` are skipped. -/
theorem Parse_count_junk_counterexample :
    Parse [97, 123, 49, 44, 50, 106, 117, 110, 107, 125] =
      .ok [.Count (.Single 97) 1 2] := rfl

/-- C11 amended: for a literal byte `x` and a body `b` without `}`, if `b` does not begin
with two decimal integers separated by a comma (each may follow white space and carry a
sign), then `Parse` of `x{b}` returns an error and no regexp. -/
theorem Parse_count_body (x : UInt8) (b : Str) (hx : Parse.isLiteral x = true)
    (hb : (125 : UInt8) ∉ b) (h : ¬ fmt.BeginsWithTwoInts b) :
    ∃ msg, Parse (x :: 123 :: (b ++ [125])) = .error msg := by
  rw [Parse_count_scan x b hx hb]
  rcases fmt.Sscanf_returns (b ++ [125]) with ⟨p, hp⟩ | ⟨msg, hm⟩
  · exact absurd (fmt.Sscanf_body hp) h
  · rw [hm]
    exact ⟨msg, rfl⟩

/-- C11 amended, at the body `3` of the claim: `a{3}` is an error. -/
theorem Parse_count_body_witness :
    ∃ msg, Parse [97, 123, 51, 125] = .error msg :=
  Parse_count_body 97 [51] (by decide) (by decide) (by
    rintro ⟨mid, rest, ⟨sp, sg, ds, h, -⟩, -⟩
    have hm : (44 : UInt8) ∈ ([51] : Str) := by
      rw [h]
      simp
    revert hm
    decide)


end gore
